import Mathlib

/-!
# Verification of the typasaur type-inference core

Shallow embedding of the inference/unification core of the typasaur
JSON-to-TypeScript CLI (source: `inferTypeFromValue`, `unifyTypes`,
`unifyTypesMany`, `normalizeUnionType`, `areTypesEqual`,
`mergeStringLiteralSets`, `shouldUseStringEnumForArray`,
`arrayContainsOnlyStrings`, `isIsoLikeDateString`), together with proofs
and refutations of the specification's claims about that core.

JavaScript `Map`s keyed by strings are embedded as association lists with
unique keys (lookups take the first match, which coincides with `Map.get`
since a `Map` never holds a duplicate key); JavaScript `Set` iteration
order is first-insertion order, embedded by `firstSeenDedup`.
-/

namespace Typasaur

/-- A JSON-decoded value (the output of `JSON.parse`).  The numeric payload
is carried for completeness but is never inspected by inference (all JSON
numbers collapse to the `number` kind). -/
inductive JSON where
  | null : JSON
  | str (s : String) : JSON
  | num (q : Rat) : JSON
  | bool (b : Bool) : JSON
  | arr (elems : List JSON) : JSON
  | obj (fields : List (String × JSON)) : JSON
deriving Repr

/-- The options record consumed by the inference engine.  The CLI builds it
with `detectDatesFromIsoStrings = !args["no-dates"]` and the two enum
thresholds via `numericOrDefault` (defaults 2 and 12). -/
structure InferOptions where
  detectDatesFromIsoStrings : Bool
  stringEnumMinUniqueValues : Int
  stringEnumMaxUniqueValues : Int
deriving Repr

/-- The internal type tree (`TypeNode`).  A field entry `(name, type, required)`
embeds the JS `fields` Map entry `name -> { type, required }`.
On string nodes, `isDate` embeds the JS truthiness of `a.isDate` (an absent
flag is falsy, so `false` stands for both `false` and absent — every
observation in the source coerces with `!!`), `enumValues` is absent or a
list, and `sample` is the retained diagnostic sample. -/
inductive TypeNode where
  | any : TypeNode
  | number : TypeNode
  | boolean : TypeNode
  | str (isDate : Bool) (enumValues : Option (List String)) (sample : Option String) : TypeNode
  | arr (items : TypeNode) : TypeNode
  | union (types : List TypeNode) : TypeNode
  | obj (fields : List (String × TypeNode × Bool)) : TypeNode
deriving Repr

/-- `a.fields.get(key)`: look a field up by name (first match; field lists
embed JS Maps, whose keys are unique). -/
def getField (k : String) (fs : List (String × TypeNode × Bool)) : Option (TypeNode × Bool) :=
  (fs.find? (fun e => e.1 == k)).map (fun e => e.2)

/-- `t.kind === "any"`. -/
def isAnyType : TypeNode → Bool
  | .any => true
  | _ => false

/-- `t.kind === "union"`. -/
def isUnionType : TypeNode → Bool
  | .union _ => true
  | _ => false

/-- `[...new Set(l)]`: deduplicate keeping the first occurrence of each
element (JS `Set` insertion order). -/
def firstSeenDedup : List String → List String
  | [] => []
  | x :: xs => x :: firstSeenDedup (xs.filter (fun y => y ≠ x))
termination_by l => l.length
decreasing_by
  simp only [List.length_cons]
  exact Nat.lt_succ_of_le (xs.length_filter_le _)

/-- A string list has no duplicate entries (JS `Map`/`Set` key uniqueness). -/
def nodupStr : List String → Bool
  | [] => true
  | x :: xs => !(xs.contains x) && nodupStr xs

/-! ## `isIsoLikeDateString`

Char-level embedding of the anchored regular expression
`^\d{4}-\d{2}-\d{2}(?:[ T]\d{2}:\d{2}(?::\d{2}(?:\.\d{1,3})?)?(?:Z|[+-]\d{2}:\d{2})?)?$`.
`\d` is the ASCII digit class, matched by `Char.isDigit`.  The regex is
deterministic on every input (a `:` can only start the seconds group, a `.`
only the fraction, and leftover digits can never be absorbed by the zone
group), so a straight-line parser decides it. -/

/-- The optional trailing zone: empty, `Z`, or `[+-]\d{2}:\d{2}`, then end. -/
def isoZoneEnd : List Char → Bool
  | [] => true
  | ['Z'] => true
  | [c, h1, h2, ':', m1, m2] =>
      (c == '+' || c == '-') && h1.isDigit && h2.isDigit && m1.isDigit && m2.isDigit
  | _ => false

/-- After `:\d{2}` seconds: an optional `\.\d{1,3}` fraction, then the zone. -/
def isoAfterSeconds : List Char → Bool
  | '.' :: rest =>
      let fr := rest.takeWhile Char.isDigit
      decide (1 ≤ fr.length) && decide (fr.length ≤ 3) && isoZoneEnd (rest.drop fr.length)
  | rest => isoZoneEnd rest

/-- After `[ T]\d{2}:\d{2}`: an optional `:\d{2}` seconds group, then the zone. -/
def isoAfterMinutes : List Char → Bool
  | ':' :: s1 :: s2 :: rest => s1.isDigit && s2.isDigit && isoAfterSeconds rest
  | rest => isoZoneEnd rest

/-- The optional time part `(?:[ T]\d{2}:\d{2}...)?` after the date. -/
def isoTimePart : List Char → Bool
  | [] => true
  | sep :: h1 :: h2 :: ':' :: n1 :: n2 :: rest =>
      (sep == ' ' || sep == 'T') && h1.isDigit && h2.isDigit && n1.isDigit && n2.isDigit &&
        isoAfterMinutes rest
  | _ => false

/-- `isIsoLikeDateString(s)`: `YYYY-MM-DD` optionally followed by a time/zone. -/
def isIsoLikeDateString (s : String) : Bool :=
  match s.toList with
  | y1 :: y2 :: y3 :: y4 :: '-' :: m1 :: m2 :: '-' :: d1 :: d2 :: rest =>
      y1.isDigit && y2.isDigit && y3.isDigit && y4.isDigit &&
        m1.isDigit && m2.isDigit && d1.isDigit && d2.isDigit && isoTimePart rest
  | _ => false

/-- One character of the token class `[A-Za-z0-9_-]`. -/
def isTokenChar (c : Char) : Bool :=
  c.isAlpha || c.isDigit || c == '_' || c == '-'

/-- `/^[A-Za-z0-9_-]+$/.test(s)`. -/
def isTokenString (s : String) : Bool :=
  !s.isEmpty && s.toList.all isTokenChar

/-- `shouldUseStringEnumForArray(stringsArray, options)`.  Both call sites
guard it with `arrayContainsOnlyStrings`, so `stringsArray.map(String)` is
the identity and the argument is taken as a list of strings.  The source
measures string length in UTF-16 units while `String.length` counts code
points; the two agree whenever the token regex can succeed (it only accepts
ASCII), and when they disagree both sides reject the string, so the
function's verdict is unchanged. -/
def shouldUseStringEnumForArray (ss : List String) (options : InferOptions) : Bool :=
  let unique := firstSeenDedup ss
  if (unique.length : Int) < options.stringEnumMinUniqueValues
      || (unique.length : Int) > options.stringEnumMaxUniqueValues then
    false
  else
    unique.all (fun s => decide (0 < s.length) && decide (s.length ≤ 20) && isTokenString s)

/-- `typeof v === "string"`. -/
def isJsonString : JSON → Bool
  | .str _ => true
  | _ => false

/-- `arrayContainsOnlyStrings(arr)`. -/
def arrayContainsOnlyStrings (l : List JSON) : Bool :=
  l.all isJsonString

/-- `value.map(String)` under the `arrayContainsOnlyStrings` guard: extract
the string payloads (`String(s)` is the identity on strings). -/
def asStrings (l : List JSON) : List String :=
  l.filterMap (fun v => match v with | .str s => some s | _ => none)

/-- `mergeStringLiteralSets(a, b)`: `undefined` when both are absent,
otherwise the first-seen-order union of the two (possibly absent) lists. -/
def mergeStringLiteralSets : Option (List String) → Option (List String) → Option (List String)
  | none, none => none
  | a, b => some (firstSeenDedup (a.getD [] ++ b.getD []))

/-! ## Structural equality (`areTypesEqual`) -/

mutual

/-- `areTypesEqual(a, b)`.  The string case embeds
`!!a.isDate === !!b.isDate && JSON.stringify(a.enumValues || []) === JSON.stringify(b.enumValues || [])`:
`JSON.stringify` is injective and order-sensitive on arrays of strings, so
the comparison is plain list equality with absent treated as `[]`; `sample`
is not inspected. -/
def areTypesEqual : TypeNode → TypeNode → Bool
  | .any, .any => true
  | .number, .number => true
  | .boolean, .boolean => true
  | .str d1 e1 _, .str d2 e2 _ => d1 == d2 && e1.getD [] == e2.getD []
  | .arr i1, .arr i2 => areTypesEqual i1 i2
  | .union ts, .union us => ts.length == us.length && eqTypeList ts us
  | .obj fa, .obj fb => fa.length == fb.length && eqFieldsIn fa fb
  | _, _ => false
termination_by a _ => sizeOf a

/-- `a.types.every((t, i) => areTypesEqual(t, b.types[i]))`: positional
pairwise equality, evaluated only under the equal-length guard.  The
mismatched-length arms are unreachable there (the source would dereference
past the end of the shorter array). -/
def eqTypeList : List TypeNode → List TypeNode → Bool
  | [], _ => true
  | _ :: _, [] => false
  | t :: ts, u :: us => areTypesEqual t u && eqTypeList ts us
termination_by ts _ => sizeOf ts

/-- The per-key object check: every entry of `a.fields` must exist in
`b.fields` with the same `required` flag and an equal type. -/
def eqFieldsIn : List (String × TypeNode × Bool) → List (String × TypeNode × Bool) → Bool
  | [], _ => true
  | (k, ta, ra) :: rest, fb =>
      (match getField k fb with
       | some (tb, rb) => (ra == rb) && areTypesEqual ta tb
       | none => false) &&
      eqFieldsIn rest fb
termination_by fa _ => sizeOf fa

end

/-! ## Union normalization -/

/-- One step of the `normalizeUnionType` flattening loop: a nested union's
members are appended wholesale; any other node is appended only when no
already-kept member is structurally equal to it. -/
def normStep (acc : List TypeNode) (t : TypeNode) : List TypeNode :=
  match t with
  | .union inner => acc ++ inner
  | _ => if acc.any (fun e => areTypesEqual e t) then acc else acc ++ [t]

/-- `normalizeUnionType(union)`: collapse to `any` when any (top-level)
member is `any`; otherwise flatten/dedup with `normStep` and collapse a
singleton result.  Takes the member list of the union being normalized. -/
def normalizeUnionType (types : List TypeNode) : TypeNode :=
  if types.any isAnyType then .any
  else
    match types.foldl normStep [] with
    | [t] => t
    | flat => .union flat

/-! ## Unification (`unifyTypes`) -/

/-- A field type found by `getField` is smaller than the field list it came
from (used for termination of the object-merge recursion). -/
theorem sizeOf_lt_of_getField {k : String} {fs : List (String × TypeNode × Bool)}
    {t : TypeNode} {r : Bool} (h : getField k fs = some (t, r)) : sizeOf t < sizeOf fs := by
  unfold getField at h
  cases hf : fs.find? (fun e => e.1 == k) with
  | none => rw [hf] at h; simp at h
  | some e =>
      rw [hf] at h
      have hm := List.mem_of_find?_eq_some hf
      have hs := List.sizeOf_lt_of_mem hm
      obtain ⟨k1, t1, r1⟩ := e
      simp at h
      obtain ⟨h1, h2⟩ := h
      subst h1; subst h2
      simp [Prod.mk.sizeOf_spec] at hs
      omega

mutual

/-- `unifyTypes(a, b)`: short-circuit on structural equality, `any`
dominance, union extension through `normalizeUnionType`, pointwise merges
for string/array/object pairs, and a fresh two-member union otherwise.
The merged string node carries no `sample` (the source builds the literal
without that key). -/
def unify (a b : TypeNode) : TypeNode :=
  if areTypesEqual a b then a
  else if isAnyType a || isAnyType b then .any
  else
    match a, b with
    | .union ts, _ => normalizeUnionType (ts ++ [b])
    | _, .union us => normalizeUnionType (a :: us)
    | .str d1 e1 _, .str d2 e2 _ =>
        .str (d1 || d2) (mergeStringLiteralSets e1 e2) none
    | .arr i1, .arr i2 => .arr (unify i1 i2)
    | .obj fa, .obj fb =>
        .obj (unifyFields (firstSeenDedup (fa.map (fun e => e.1) ++ fb.map (fun e => e.1))) fa fb)
    | _, _ => normalizeUnionType [a, b]
termination_by (sizeOf a + sizeOf b, 0)

/-- The object-merge loop of `unifyTypes`: iterate the first-seen union of
the two key sets; a key present on both sides unifies the field types and
ANDs the `required` flags, a one-sided key keeps its type with
`required = false`.  The `none, none` arm is unreachable (every visited key
comes from one of the two field sets). -/
def unifyFields (keys : List String) (fa fb : List (String × TypeNode × Bool)) :
    List (String × TypeNode × Bool) :=
  match keys with
  | [] => []
  | k :: rest =>
      (match h1 : getField k fa, h2 : getField k fb with
       | some (ta, ra), some (tb, rb) =>
           have : sizeOf ta + sizeOf tb < sizeOf fa + sizeOf fb :=
             Nat.add_lt_add (sizeOf_lt_of_getField h1) (sizeOf_lt_of_getField h2)
           [(k, unify ta tb, ra && rb)]
       | some (ta, _), none => [(k, ta, false)]
       | none, some (tb, _) => [(k, tb, false)]
       | none, none => []) ++
      unifyFields rest fa fb
termination_by (sizeOf fa + sizeOf fb, keys.length + 1)

end

/-- `unifyTypesMany(nodes)`: left fold of `unifyTypes`.  The source uses
`Array.prototype.reduce` without a seed, which throws on an empty array;
inference never calls it on one, and the `[]` arm is that unreachable case. -/
def unifyTypesMany : List TypeNode → TypeNode
  | [] => .any
  | x :: xs => xs.foldl unify x

/-! ## Inference (`inferTypeFromValue`) -/

mutual

/-- `inferTypeFromValue(value, options)`.  `null` maps to `any`; a string
node records the date heuristic and the sample; arrays short-circuit to a
string-literal enum when `arrayContainsOnlyStrings` and
`shouldUseStringEnumForArray` both accept, and otherwise unify the
per-element inferences; objects infer each field with `required: v !== undefined`,
which is always `true` for a JSON-decoded value.  The source's trailing
`return { kind: "any" }` (non-JSON runtime values) is unreachable here. -/
def inferTypeFromValue (value : JSON) (options : InferOptions) : TypeNode :=
  match value with
  | .null => .any
  | .str s =>
      .str (options.detectDatesFromIsoStrings && isIsoLikeDateString s) none (some s)
  | .num _ => .number
  | .bool _ => .boolean
  | .arr elems =>
      if elems.isEmpty then .arr .any
      else if arrayContainsOnlyStrings elems
          && shouldUseStringEnumForArray (asStrings elems) options then
        .arr (.str false (some (firstSeenDedup (asStrings elems))) none)
      else
        .arr (unifyTypesMany (inferList elems options))
  | .obj kvs => .obj (inferFields kvs options)
termination_by sizeOf value

/-- `value.map((v) => inferTypeFromValue(v, options))`. -/
def inferList (elems : List JSON) (options : InferOptions) : List TypeNode :=
  match elems with
  | [] => []
  | v :: vs => inferTypeFromValue v options :: inferList vs options
termination_by sizeOf elems

/-- The object-field loop: `fields.set(k, { type: infer(v), required: v !== undefined })`
over `Object.entries(value)` in insertion order. -/
def inferFields (kvs : List (String × JSON)) (options : InferOptions) :
    List (String × TypeNode × Bool) :=
  match kvs with
  | [] => []
  | (k, v) :: rest => (k, inferTypeFromValue v options, true) :: inferFields rest options
termination_by sizeOf kvs

end

/-! ## Well-formedness predicates

`keysOk` states that every object node's field list has pairwise-distinct
keys — exactly the values representable by the JS `Map`-based trees; it is
the representation invariant of the data model.  `jsonKeysOk` is the same
condition on JSON values (guaranteed by `JSON.parse`). -/

mutual

/-- Every object field list in the tree has pairwise-distinct keys. -/
def keysOk : TypeNode → Bool
  | .any => true
  | .number => true
  | .boolean => true
  | .str _ _ _ => true
  | .arr t => keysOk t
  | .union ts => keysOkList ts
  | .obj fs => nodupStr (fs.map (fun e => e.1)) && keysOkFields fs
termination_by t => sizeOf t

/-- `keysOk` for each member of a union. -/
def keysOkList : List TypeNode → Bool
  | [] => true
  | t :: ts => keysOk t && keysOkList ts
termination_by ts => sizeOf ts

/-- `keysOk` for each field type. -/
def keysOkFields : List (String × TypeNode × Bool) → Bool
  | [] => true
  | (_, t, _) :: rest => keysOk t && keysOkFields rest
termination_by fs => sizeOf fs

end

mutual

/-- Every JSON object in the value has pairwise-distinct keys (as is the
case for any value produced by `JSON.parse`). -/
def jsonKeysOk : JSON → Bool
  | .null => true
  | .str _ => true
  | .num _ => true
  | .bool _ => true
  | .arr elems => jsonKeysOkList elems
  | .obj kvs => nodupStr (kvs.map (fun e => e.1)) && jsonKeysOkFields kvs
termination_by v => sizeOf v

/-- `jsonKeysOk` for each array element. -/
def jsonKeysOkList : List JSON → Bool
  | [] => true
  | v :: vs => jsonKeysOk v && jsonKeysOkList vs
termination_by l => sizeOf l

/-- `jsonKeysOk` for each object entry value. -/
def jsonKeysOkFields : List (String × JSON) → Bool
  | [] => true
  | (_, v) :: rest => jsonKeysOk v && jsonKeysOkFields rest
termination_by l => sizeOf l

end

/-- No member of the list is structurally equal to another (checked in both
orientations). -/
def pairwiseNE : List TypeNode → Bool
  | [] => true
  | t :: rest =>
      rest.all (fun u => !areTypesEqual t u && !areTypesEqual u t) && pairwiseNE rest

mutual

/-- The §3 data-model invariants of a type tree: object keys are unique,
and every union is normalized — at least two members, no union or `any`
member, members pairwise structurally distinct. -/
def wfNode : TypeNode → Bool
  | .any => true
  | .number => true
  | .boolean => true
  | .str _ _ _ => true
  | .arr t => wfNode t
  | .union ts =>
      decide (2 ≤ ts.length) && ts.all (fun t => !isUnionType t && !isAnyType t) &&
        pairwiseNE ts && wfNodeList ts
  | .obj fs => nodupStr (fs.map (fun e => e.1)) && wfNodeFields fs
termination_by t => sizeOf t

/-- `wfNode` for each member of a union. -/
def wfNodeList : List TypeNode → Bool
  | [] => true
  | t :: ts => wfNode t && wfNodeList ts
termination_by ts => sizeOf ts

/-- `wfNode` for each field type. -/
def wfNodeFields : List (String × TypeNode × Bool) → Bool
  | [] => true
  | (_, t, _) :: rest => wfNode t && wfNodeFields rest
termination_by fs => sizeOf fs

end

/-! ## Structural equality up to reordering

`eqUpTo` is `areTypesEqual` weakened exactly where storage order is
arbitrary: union member lists are compared by mutual containment (plus
equal length) instead of positionally, and string enum lists are compared
as sets.  It is the equality notion of the amended commutativity claim. -/

/-- Every member of `ts` has a structurally equal member in `us`. -/
def containsEq (ts us : List TypeNode) : Bool :=
  ts.all (fun t => us.any (fun u => areTypesEqual t u))

/-- The two string lists have the same members (set equality). -/
def setEqStr (l1 l2 : List String) : Bool :=
  l1.all (fun x => l2.contains x) && l2.all (fun x => l1.contains x)

mutual

/-- Structural equality up to reordering of union members and of string
enum values (field lookup is already order-insensitive). -/
def eqUpTo : TypeNode → TypeNode → Bool
  | .any, .any => true
  | .number, .number => true
  | .boolean, .boolean => true
  | .str d1 e1 _, .str d2 e2 _ => d1 == d2 && setEqStr (e1.getD []) (e2.getD [])
  | .arr i1, .arr i2 => eqUpTo i1 i2
  | .union ts, .union us => ts.length == us.length && containsEq ts us && containsEq us ts
  | .obj fa, .obj fb => fa.length == fb.length && fieldsUpTo fa fb && fieldsUpTo fb fa
  | _, _ => false
termination_by a b => sizeOf a + sizeOf b

/-- Per-key inclusion of `fa` in `fb` with equal `required` flags and
`eqUpTo`-equal types. -/
def fieldsUpTo : List (String × TypeNode × Bool) → List (String × TypeNode × Bool) → Bool
  | [], _ => true
  | (k, ta, ra) :: rest, fb =>
      (match h : getField k fb with
       | some (tb, rb) =>
           have : sizeOf tb < sizeOf fb := sizeOf_lt_of_getField h
           (ra == rb) && eqUpTo ta tb
       | none => false) &&
      fieldsUpTo rest fb
termination_by fa fb => sizeOf fa + sizeOf fb
decreasing_by
  all_goals simp_wf
  all_goals omega

end

/-! ## Basic lemmas: dedup, key uniqueness, lookup -/

theorem mem_firstSeenDedup {a : String} : ∀ {l : List String}, a ∈ firstSeenDedup l ↔ a ∈ l
  | [] => by simp [firstSeenDedup]
  | x :: xs => by
      by_cases hax : a = x
      · subst hax; simp [firstSeenDedup]
      · simp only [firstSeenDedup, List.mem_cons, hax, false_or]
        rw [mem_firstSeenDedup]
        simp [hax]
termination_by l => l.length
decreasing_by
  simp only [List.length_cons]
  exact Nat.lt_succ_of_le (List.length_filter_le _ _)

theorem nodupStr_eq_true_iff : ∀ {l : List String}, nodupStr l = true ↔ l.Nodup
  | [] => by simp [nodupStr]
  | x :: xs => by
      simp [nodupStr, List.nodup_cons, nodupStr_eq_true_iff]

theorem nodupStr_firstSeenDedup : ∀ (l : List String), nodupStr (firstSeenDedup l) = true
  | [] => by simp [firstSeenDedup, nodupStr]
  | x :: xs => by
      simp only [firstSeenDedup, nodupStr, Bool.and_eq_true]
      refine ⟨?_, nodupStr_firstSeenDedup (xs.filter (fun y => y ≠ x))⟩
      simp only [Bool.not_eq_true']
      by_contra hc
      simp only [Bool.not_eq_false] at hc
      rw [List.contains_eq_any_beq] at hc
      simp only [List.any_eq_true, beq_iff_eq] at hc
      obtain ⟨y, hy, rfl⟩ := hc
      rw [mem_firstSeenDedup] at hy
      simp at hy
termination_by l => l.length
decreasing_by
  simp only [List.length_cons]
  exact Nat.lt_succ_of_le (List.length_filter_le _ _)

theorem nodupStr_filter {p : String → Bool} :
    ∀ {l : List String}, nodupStr l = true → nodupStr (l.filter p) = true := by
  intro l hl
  rw [nodupStr_eq_true_iff] at hl ⊢
  exact hl.filter p

@[simp] theorem getField_nil {k : String} : getField k [] = none := rfl

theorem getField_cons {k k1 : String} {t1 : TypeNode} {r1 : Bool}
    {fs : List (String × TypeNode × Bool)} :
    getField k ((k1, t1, r1) :: fs) =
      if k1 = k then some (t1, r1) else getField k fs := by
  simp only [getField, List.find?]
  by_cases h : k1 = k
  · simp [h]
  · simp only [h, if_false]
    have : ((k1, t1, r1).1 == k) = false := by simp [h]
    simp [this]

theorem getField_append {k : String} {l1 l2 : List (String × TypeNode × Bool)} :
    getField k (l1 ++ l2) = (getField k l1).or (getField k l2) := by
  simp only [getField, List.find?_append]
  cases l1.find? (fun e => e.1 == k) <;> simp

theorem mem_of_getField {k : String} {fs : List (String × TypeNode × Bool)}
    {t : TypeNode} {r : Bool} (h : getField k fs = some (t, r)) : (k, t, r) ∈ fs := by
  simp only [getField] at h
  cases hf : fs.find? (fun e => e.1 == k) with
  | none => rw [hf] at h; simp at h
  | some e =>
      rw [hf] at h
      have hm := List.mem_of_find?_eq_some hf
      have hp := List.find?_some hf
      obtain ⟨k1, t1, r1⟩ := e
      simp only [Option.map_some'] at h
      simp only [beq_iff_eq] at hp
      cases h
      subst hp
      exact hm

theorem getField_isSome_iff {k : String} {fs : List (String × TypeNode × Bool)} :
    (getField k fs).isSome = true ↔ k ∈ fs.map (fun e => e.1) := by
  induction fs with
  | nil => simp
  | cons e rest ih =>
      obtain ⟨k1, t1, r1⟩ := e
      rw [getField_cons]
      by_cases h : k1 = k
      · subst h; simp
      · simp only [h, if_false, List.map_cons, List.mem_cons]
        rw [ih]
        simp [Ne.symm h]

theorem getField_eq_none_iff {k : String} {fs : List (String × TypeNode × Bool)} :
    getField k fs = none ↔ k ∉ fs.map (fun e => e.1) := by
  rw [← getField_isSome_iff]
  cases getField k fs <;> simp

theorem getField_of_mem_nodup {k : String} {fs : List (String × TypeNode × Bool)}
    {t : TypeNode} {r : Bool} (hn : nodupStr (fs.map (fun e => e.1)) = true)
    (hm : (k, t, r) ∈ fs) : getField k fs = some (t, r) := by
  induction fs with
  | nil => simp at hm
  | cons e rest ih =>
      obtain ⟨k1, t1, r1⟩ := e
      simp only [List.map_cons, nodupStr, Bool.and_eq_true] at hn
      rw [getField_cons]
      rcases List.mem_cons.mp hm with h | h
      · cases h; simp
      · have hk : k1 ≠ k := by
          rintro rfl
          have hmem : k1 ∈ rest.map (fun e => e.1) :=
            List.mem_map.mpr ⟨(k1, t, r), h, rfl⟩
          have hnc := hn.1
          simp only [Bool.not_eq_true'] at hnc
          rw [List.contains_eq_any_beq] at hnc
          rw [List.any_eq_false] at hnc
          exact hnc _ hmem (by simp)
        simp only [hk, if_false]
        exact ih hn.2 h

/-! ## Bridging the Bool predicates to quantified statements -/

theorem keysOkList_eq_true_iff {ts : List TypeNode} :
    keysOkList ts = true ↔ ∀ t ∈ ts, keysOk t = true := by
  induction ts with
  | nil => simp [keysOkList]
  | cons t rest ih => simp [keysOkList, ih]

theorem keysOkFields_eq_true_iff {fs : List (String × TypeNode × Bool)} :
    keysOkFields fs = true ↔ ∀ e ∈ fs, keysOk e.2.1 = true := by
  induction fs with
  | nil => simp [keysOkFields]
  | cons e rest ih => obtain ⟨k, t, r⟩ := e; simp [keysOkFields, ih]

theorem wfNodeList_eq_true_iff {ts : List TypeNode} :
    wfNodeList ts = true ↔ ∀ t ∈ ts, wfNode t = true := by
  induction ts with
  | nil => simp [wfNodeList]
  | cons t rest ih => simp [wfNodeList, ih]

theorem wfNodeFields_eq_true_iff {fs : List (String × TypeNode × Bool)} :
    wfNodeFields fs = true ↔ ∀ e ∈ fs, wfNode e.2.1 = true := by
  induction fs with
  | nil => simp [wfNodeFields]
  | cons e rest ih => obtain ⟨k, t, r⟩ := e; simp [wfNodeFields, ih]

theorem jsonKeysOkList_eq_true_iff {vs : List JSON} :
    jsonKeysOkList vs = true ↔ ∀ v ∈ vs, jsonKeysOk v = true := by
  induction vs with
  | nil => simp [jsonKeysOkList]
  | cons v rest ih => simp [jsonKeysOkList, ih]

theorem jsonKeysOkFields_eq_true_iff {kvs : List (String × JSON)} :
    jsonKeysOkFields kvs = true ↔ ∀ e ∈ kvs, jsonKeysOk e.2 = true := by
  induction kvs with
  | nil => simp [jsonKeysOkFields]
  | cons e rest ih => obtain ⟨k, v⟩ := e; simp [jsonKeysOkFields, ih]

theorem pairwiseNE_cons_iff {t : TypeNode} {rest : List TypeNode} :
    pairwiseNE (t :: rest) = true ↔
      (∀ u ∈ rest, areTypesEqual t u = false ∧ areTypesEqual u t = false) ∧
        pairwiseNE rest = true := by
  simp [pairwiseNE, Bool.not_eq_true', and_assoc]

theorem eqTypeList_iff_forall₂ :
    ∀ {ts us : List TypeNode}, ts.length = us.length →
      (eqTypeList ts us = true ↔ List.Forall₂ (fun t u => areTypesEqual t u = true) ts us)
  | [], [], _ => by simp [eqTypeList]
  | [], _ :: _, h => by simp at h
  | _ :: _, [], h => by simp at h
  | t :: ts, u :: us, h => by
      simp only [List.length_cons, Nat.succ.injEq] at h
      simp [eqTypeList, List.forall₂_cons, eqTypeList_iff_forall₂ h]

theorem eqFieldsIn_eq_true_iff {l fb : List (String × TypeNode × Bool)} :
    eqFieldsIn l fb = true ↔
      ∀ k t r, (k, t, r) ∈ l →
        ∃ tb rb, getField k fb = some (tb, rb) ∧ r = rb ∧ areTypesEqual t tb = true := by
  induction l with
  | nil => simp [eqFieldsIn]
  | cons e rest ih =>
      obtain ⟨k, t, r⟩ := e
      simp only [eqFieldsIn, Bool.and_eq_true, ih]
      constructor
      · rintro ⟨hhead, htail⟩ k1 t1 r1 hm
        rcases List.mem_cons.mp hm with hh | hh
        · obtain ⟨hk, ht, hr⟩ : k1 = k ∧ t1 = t ∧ r1 = r := by simpa using hh
          subst hk; subst ht; subst hr
          cases hg : getField k1 fb with
          | none => rw [hg] at hhead; simp at hhead
          | some p =>
              obtain ⟨tb, rb⟩ := p
              rw [hg] at hhead
              simp only [Bool.and_eq_true, beq_iff_eq] at hhead
              exact ⟨tb, rb, rfl, hhead.1, hhead.2⟩
        · exact htail k1 t1 r1 hh
      · intro hall
        constructor
        · obtain ⟨tb, rb, hg, hr, he⟩ := hall k t r (List.mem_cons_self _ _)
          rw [hg]
          simp [hr, he]
        · intro k1 t1 r1 hm
          exact hall k1 t1 r1 (List.mem_cons_of_mem _ hm)

theorem fieldsUpTo_eq_true_iff {l fb : List (String × TypeNode × Bool)} :
    fieldsUpTo l fb = true ↔
      ∀ k t r, (k, t, r) ∈ l →
        ∃ tb rb, getField k fb = some (tb, rb) ∧ r = rb ∧ eqUpTo t tb = true := by
  induction l with
  | nil => simp [fieldsUpTo]
  | cons e rest ih =>
      obtain ⟨k, t, r⟩ := e
      simp only [fieldsUpTo, Bool.and_eq_true, ih]
      constructor
      · rintro ⟨hhead, htail⟩ k1 t1 r1 hm
        rcases List.mem_cons.mp hm with hh | hh
        · obtain ⟨hk, ht, hr⟩ : k1 = k ∧ t1 = t ∧ r1 = r := by simpa using hh
          subst hk; subst ht; subst hr
          cases hg : getField k1 fb with
          | none => rw [hg] at hhead; simp at hhead
          | some p =>
              obtain ⟨tb, rb⟩ := p
              rw [hg] at hhead
              simp only [Bool.and_eq_true, beq_iff_eq] at hhead
              exact ⟨tb, rb, rfl, hhead.1, hhead.2⟩
        · exact htail k1 t1 r1 hh
      · intro hall
        constructor
        · obtain ⟨tb, rb, hg, hr, he⟩ := hall k t r (List.mem_cons_self _ _)
          rw [hg]
          simp [hr, he]
        · intro k1 t1 r1 hm
          exact hall k1 t1 r1 (List.mem_cons_of_mem _ hm)

theorem containsEq_eq_true_iff {ts us : List TypeNode} :
    containsEq ts us = true ↔ ∀ t ∈ ts, ∃ u ∈ us, areTypesEqual t u = true := by
  simp [containsEq]

theorem setEqStr_eq_true_iff {l1 l2 : List String} :
    setEqStr l1 l2 = true ↔ ((∀ x ∈ l1, x ∈ l2) ∧ ∀ x ∈ l2, x ∈ l1) := by
  simp [setEqStr]

/-! ## Unfolding lemmas for `unify` and `normalizeUnionType` -/

theorem areTypesEqual_any_left_iff {b : TypeNode} :
    areTypesEqual .any b = true ↔ b = .any := by
  cases b <;> simp [areTypesEqual]

theorem areTypesEqual_any_right_iff {a : TypeNode} :
    areTypesEqual a .any = true ↔ a = .any := by
  cases a <;> simp [areTypesEqual]

theorem unify_of_equal {a b : TypeNode} (h : areTypesEqual a b = true) : unify a b = a := by
  rw [unify.eq_def]
  simp [h]

theorem unify_any_left (b : TypeNode) : unify .any b = .any := by
  rw [unify.eq_def]
  cases h : areTypesEqual .any b
  · simp [h, isAnyType]
  · simp [h]

theorem unify_any_right (a : TypeNode) : unify a .any = .any := by
  cases h : areTypesEqual a .any
  · rw [unify.eq_def]
    simp [h, isAnyType]
  · have := areTypesEqual_any_right_iff.mp h
    subst this
    rw [unify.eq_def]
    simp [h]

theorem unify_union_left {ts : List TypeNode} {b : TypeNode}
    (h : areTypesEqual (.union ts) b = false) (hb : isAnyType b = false) :
    unify (.union ts) b = normalizeUnionType (ts ++ [b]) := by
  have h2 : isAnyType (.union ts) = false := rfl
  rw [unify.eq_def]
  simp [h, hb, h2]

theorem unify_union_right {a : TypeNode} {us : List TypeNode}
    (h : areTypesEqual a (.union us) = false) (ha : isAnyType a = false)
    (hu : isUnionType a = false) :
    unify a (.union us) = normalizeUnionType (a :: us) := by
  cases a <;> rw [unify.eq_def] <;> simp_all [isAnyType, isUnionType]

theorem unify_str_str {d1 d2 : Bool} {e1 e2 : Option (List String)} {s1 s2 : Option String}
    (h : areTypesEqual (.str d1 e1 s1) (.str d2 e2 s2) = false) :
    unify (.str d1 e1 s1) (.str d2 e2 s2) =
      .str (d1 || d2) (mergeStringLiteralSets e1 e2) none := by
  simp [unify, h, isAnyType]

theorem unify_arr_arr {x y : TypeNode} (h : areTypesEqual (.arr x) (.arr y) = false) :
    unify (.arr x) (.arr y) = .arr (unify x y) := by
  simp [unify, h, isAnyType]

theorem unify_obj_obj {fa fb : List (String × TypeNode × Bool)}
    (h : areTypesEqual (.obj fa) (.obj fb) = false) :
    unify (.obj fa) (.obj fb) =
      .obj (unifyFields (firstSeenDedup (fa.map (fun e => e.1) ++ fb.map (fun e => e.1))) fa fb) := by
  simp [unify, h, isAnyType]

theorem normStep_union {acc : List TypeNode} {inner : List TypeNode} :
    normStep acc (.union inner) = acc ++ inner := rfl

theorem normStep_nonunion {acc : List TypeNode} {t : TypeNode} (h : isUnionType t = false) :
    normStep acc t = if acc.any (fun e => areTypesEqual e t) then acc else acc ++ [t] := by
  cases t <;> simp_all [normStep, isUnionType]

theorem normalizeUnionType_of_any {l : List TypeNode} (h : l.any isAnyType = true) :
    normalizeUnionType l = .any := by
  simp [normalizeUnionType, h]

theorem normalizeUnionType_eq_union {l : List TypeNode} (hany : l.any isAnyType = false)
    (hlen : (l.foldl normStep []).length ≠ 1) :
    normalizeUnionType l = .union (l.foldl normStep []) := by
  rcases hf : l.foldl normStep [] with _ | ⟨a, _ | ⟨b, rest⟩⟩
  · simp [normalizeUnionType, hany, hf]
  · rw [hf] at hlen; simp at hlen
  · simp [normalizeUnionType, hany, hf]

theorem normalizeUnionType_of_singleton {l : List TypeNode} {t : TypeNode}
    (hany : l.any isAnyType = false) (hflat : l.foldl normStep [] = [t]) :
    normalizeUnionType l = t := by
  simp [normalizeUnionType, hany, hflat]

/-- The flattening fold on a list of non-union, pairwise-unequal candidates
(the shape arising from an already-normalized union) appends exactly the
candidates not already represented in the accumulator. -/
theorem foldl_normStep_eq_filter :
    ∀ (ts acc : List TypeNode), (∀ t ∈ ts, isUnionType t = false) → pairwiseNE ts = true →
      ts.foldl normStep acc =
        acc ++ ts.filter (fun t => !(acc.any (fun e => areTypesEqual e t)))
  | [], acc, _, _ => by simp
  | t :: rest, acc, hnu, hpw => by
      obtain ⟨hpair, hpwrest⟩ := pairwiseNE_cons_iff.mp hpw
      have hnut : isUnionType t = false := hnu t (List.mem_cons_self _ _)
      have hnurest : ∀ u ∈ rest, isUnionType u = false :=
        fun u hu => hnu u (List.mem_cons_of_mem _ hu)
      simp only [List.foldl_cons]
      rw [normStep_nonunion hnut]
      cases hg : acc.any (fun e => areTypesEqual e t) with
      | true =>
          simp only [hg, if_true]
          rw [foldl_normStep_eq_filter rest acc hnurest hpwrest]
          simp [List.filter_cons, hg]
      | false =>
          simp only [hg, Bool.false_eq_true, if_false]
          rw [foldl_normStep_eq_filter rest (acc ++ [t]) hnurest hpwrest]
          simp only [List.filter_cons, hg, Bool.not_false, if_true]
          rw [List.append_assoc]
          simp only [List.singleton_append]
          congr 2
          apply List.filter_congr
          intro u hu
          simp only [List.any_append, List.any_cons, List.any_nil, Bool.or_false]
          have : areTypesEqual t u = false := (hpair u hu).1
          rw [this]
          simp

/-! ## Size lemmas -/

theorem sizeOf_TypeNode_pos (x : TypeNode) : 0 < sizeOf x := by
  cases x <;> simp_arith

theorem sizeOf_mem_types {t : TypeNode} {ts : List TypeNode} (h : t ∈ ts) :
    sizeOf t < sizeOf (TypeNode.union ts) := by
  have := List.sizeOf_lt_of_mem h
  simp only [TypeNode.union.sizeOf_spec]
  omega

theorem sizeOf_mem_fields {k : String} {t : TypeNode} {r : Bool}
    {fs : List (String × TypeNode × Bool)} (h : (k, t, r) ∈ fs) :
    sizeOf t < sizeOf (TypeNode.obj fs) := by
  have := List.sizeOf_lt_of_mem h
  simp only [Prod.mk.sizeOf_spec] at this
  simp only [TypeNode.obj.sizeOf_spec]
  omega

theorem sizeOf_getField_obj {k : String} {t : TypeNode} {r : Bool}
    {fs : List (String × TypeNode × Bool)} (h : getField k fs = some (t, r)) :
    sizeOf t < sizeOf (TypeNode.obj fs) := by
  have := sizeOf_lt_of_getField h
  simp only [TypeNode.obj.sizeOf_spec]
  omega

/-! ## `areTypesEqual` is an equivalence on representable trees -/

theorem eqTypeList_refl_of : ∀ {ts : List TypeNode},
    (∀ t ∈ ts, areTypesEqual t t = true) → eqTypeList ts ts = true
  | [], _ => by simp [eqTypeList]
  | t :: rest, h => by
      simp only [eqTypeList, Bool.and_eq_true]
      exact ⟨h t (List.mem_cons_self _ _),
        eqTypeList_refl_of (fun u hu => h u (List.mem_cons_of_mem _ hu))⟩

theorem areTypesEqual_refl_aux :
    ∀ (n : Nat) (x : TypeNode), sizeOf x ≤ n → keysOk x = true → areTypesEqual x x = true := by
  intro n
  induction n with
  | zero =>
      intro x hx _
      exact absurd hx (by have := sizeOf_TypeNode_pos x; omega)
  | succ m ih =>
      intro x hx hk
      match x with
      | .any => simp [areTypesEqual]
      | .number => simp [areTypesEqual]
      | .boolean => simp [areTypesEqual]
      | .str d e s => simp [areTypesEqual]
      | .arr t =>
          have hs : sizeOf t ≤ m := by simp_arith at hx; omega
          have hkt : keysOk t = true := by simpa [keysOk] using hk
          simpa [areTypesEqual] using ih t hs hkt
      | .union ts =>
          have hks := keysOkList_eq_true_iff.mp (by simpa [keysOk] using hk)
          simp only [areTypesEqual, Bool.and_eq_true, beq_iff_eq]
          refine ⟨trivial, eqTypeList_refl_of (fun t ht => ?_)⟩
          have := sizeOf_mem_types ht
          exact ih t (by omega) (hks t ht)
      | .obj fs =>
          have hk2 : nodupStr (fs.map (fun e => e.1)) = true ∧ keysOkFields fs = true := by
            simpa [keysOk] using hk
          have hks := keysOkFields_eq_true_iff.mp hk2.2
          simp only [areTypesEqual, Bool.and_eq_true, beq_iff_eq]
          refine ⟨trivial, eqFieldsIn_eq_true_iff.mpr (fun k t r hm => ?_)⟩
          refine ⟨t, r, getField_of_mem_nodup hk2.1 hm, rfl, ?_⟩
          have := sizeOf_mem_fields hm
          exact ih t (by omega) (hks (k, t, r) hm)

theorem areTypesEqual_refl {x : TypeNode} (hk : keysOk x = true) :
    areTypesEqual x x = true :=
  areTypesEqual_refl_aux (sizeOf x) x le_rfl hk

theorem mem_iff_of_subset_of_length {l1 l2 : List String} (h1 : l1.Nodup) (h2 : l2.Nodup)
    (hsub : ∀ x ∈ l1, x ∈ l2) (hlen : l2.length ≤ l1.length) : ∀ x, x ∈ l1 ↔ x ∈ l2 := by
  have hfsub : l1.toFinset ⊆ l2.toFinset := by
    intro x hx
    rw [List.mem_toFinset] at hx ⊢
    exact hsub x hx
  have hcard : l2.toFinset.card ≤ l1.toFinset.card := by
    rw [List.toFinset_card_of_nodup h1, List.toFinset_card_of_nodup h2]
    exact hlen
  have := Finset.eq_of_subset_of_card_le hfsub hcard
  intro x
  rw [← List.mem_toFinset, ← l2.mem_toFinset, this]

theorem eqTypeList_symm_of :
    ∀ (ts us : List TypeNode), ts.length = us.length →
      (∀ t ∈ ts, ∀ u ∈ us, areTypesEqual t u = true → areTypesEqual u t = true) →
      eqTypeList ts us = true → eqTypeList us ts = true
  | [], [], _, _, _ => by simp [eqTypeList]
  | [], _ :: _, hlen, _, _ => by simp at hlen
  | _ :: _, [], hlen, _, _ => by simp at hlen
  | t :: ts, u :: us, hlen, horacle, h => by
      simp only [List.length_cons, Nat.succ.injEq] at hlen
      simp only [eqTypeList, Bool.and_eq_true] at h ⊢
      refine ⟨horacle t (List.mem_cons_self _ _) u (List.mem_cons_self _ _) h.1, ?_⟩
      exact eqTypeList_symm_of ts us hlen
        (fun t1 ht1 u1 hu1 => horacle t1 (List.mem_cons_of_mem _ ht1) u1 (List.mem_cons_of_mem _ hu1))
        h.2

theorem areTypesEqual_symm_aux :
    ∀ (n : Nat) (a b : TypeNode), sizeOf a + sizeOf b ≤ n →
      keysOk a = true → keysOk b = true →
      areTypesEqual a b = true → areTypesEqual b a = true := by
  intro n
  induction n with
  | zero =>
      intro a b hs _ _ _
      exact absurd hs (by have := sizeOf_TypeNode_pos a; have := sizeOf_TypeNode_pos b; omega)
  | succ m ih =>
      intro a b hs hka hkb h
      match a, b with
      | .any, .any => exact h
      | .number, .number => exact h
      | .boolean, .boolean => exact h
      | .str d1 e1 s1, .str d2 e2 s2 =>
          simp only [areTypesEqual, Bool.and_eq_true, beq_iff_eq] at h ⊢
          exact ⟨h.1.symm, h.2.symm⟩
      | .arr x, .arr y =>
          simp only [areTypesEqual] at h ⊢
          have hx : sizeOf x < sizeOf (TypeNode.arr x) := by simp_arith
          have hy : sizeOf y < sizeOf (TypeNode.arr y) := by simp_arith
          exact ih x y (by omega) (by simpa [keysOk] using hka) (by simpa [keysOk] using hkb) h
      | .union ts, .union us =>
          have hkts := keysOkList_eq_true_iff.mp (by simpa [keysOk] using hka)
          have hkus := keysOkList_eq_true_iff.mp (by simpa [keysOk] using hkb)
          simp only [areTypesEqual, Bool.and_eq_true, beq_iff_eq] at h ⊢
          refine ⟨h.1.symm, eqTypeList_symm_of ts us h.1 (fun t ht u hu he => ?_) h.2⟩
          have h1 := sizeOf_mem_types ht
          have h2 := sizeOf_mem_types hu
          exact ih t u (by omega) (hkts t ht) (hkus u hu) he
      | .obj fa, .obj fb =>
          have hka2 : nodupStr (fa.map (fun e => e.1)) = true ∧ keysOkFields fa = true := by
            simpa [keysOk] using hka
          have hkb2 : nodupStr (fb.map (fun e => e.1)) = true ∧ keysOkFields fb = true := by
            simpa [keysOk] using hkb
          have hkfa := keysOkFields_eq_true_iff.mp hka2.2
          have hkfb := keysOkFields_eq_true_iff.mp hkb2.2
          simp only [areTypesEqual, Bool.and_eq_true, beq_iff_eq] at h ⊢
          obtain ⟨hlen, hfields⟩ := h
          have hprops := eqFieldsIn_eq_true_iff.mp hfields
          -- the key sets coincide
          have hsub : ∀ x ∈ fa.map (fun e => e.1), x ∈ fb.map (fun e => e.1) := by
            intro x hx
            obtain ⟨e, he, rfl⟩ := List.mem_map.mp hx
            obtain ⟨k, t, r⟩ := e
            obtain ⟨tb, rb, hg, _, _⟩ := hprops k t r he
            rw [← getField_isSome_iff, hg]
            rfl
          have hmemiff := mem_iff_of_subset_of_length
            (nodupStr_eq_true_iff.mp hka2.1) (nodupStr_eq_true_iff.mp hkb2.1) hsub
            (by simp [hlen])
          refine ⟨hlen.symm, eqFieldsIn_eq_true_iff.mpr (fun k tb rb hmb => ?_)⟩
          have hkinb : k ∈ fb.map (fun e => e.1) := List.mem_map.mpr ⟨(k, tb, rb), hmb, rfl⟩
          have hkina : k ∈ fa.map (fun e => e.1) := (hmemiff k).mpr hkinb
          obtain ⟨ea, hea, heak⟩ := List.mem_map.mp hkina
          obtain ⟨k1, ta, ra⟩ := ea
          have hk1 : k1 = k := heak
          subst hk1
          have hga : getField k1 fa = some (ta, ra) := getField_of_mem_nodup hka2.1 hea
          obtain ⟨tb1, rb1, hgb1, hreq, heq⟩ := hprops k1 ta ra hea
          rw [getField_of_mem_nodup hkb2.1 hmb] at hgb1
          obtain ⟨rfl, rfl⟩ : tb = tb1 ∧ rb = rb1 := by simpa using hgb1
          refine ⟨ta, ra, hga, hreq.symm, ?_⟩
          have h1 := sizeOf_mem_fields hea
          have h2 := sizeOf_mem_fields hmb
          exact ih ta tb (by omega) (hkfa (k1, ta, ra) hea) (hkfb (k1, tb, rb) hmb) heq
      | .any, .number | .any, .boolean | .any, .str _ _ _ | .any, .arr _ | .any, .union _
      | .any, .obj _ | .number, .any | .number, .boolean | .number, .str _ _ _
      | .number, .arr _ | .number, .union _ | .number, .obj _ | .boolean, .any
      | .boolean, .number | .boolean, .str _ _ _ | .boolean, .arr _ | .boolean, .union _
      | .boolean, .obj _ | .str _ _ _, .any | .str _ _ _, .number | .str _ _ _, .boolean
      | .str _ _ _, .arr _ | .str _ _ _, .union _ | .str _ _ _, .obj _ | .arr _, .any
      | .arr _, .number | .arr _, .boolean | .arr _, .str _ _ _ | .arr _, .union _
      | .arr _, .obj _ | .union _, .any | .union _, .number | .union _, .boolean
      | .union _, .str _ _ _ | .union _, .arr _ | .union _, .obj _ | .obj _, .any
      | .obj _, .number | .obj _, .boolean | .obj _, .str _ _ _ | .obj _, .arr _
      | .obj _, .union _ => simp [areTypesEqual] at h

theorem areTypesEqual_symm {a b : TypeNode} (hka : keysOk a = true) (hkb : keysOk b = true)
    (h : areTypesEqual a b = true) : areTypesEqual b a = true :=
  areTypesEqual_symm_aux (sizeOf a + sizeOf b) a b le_rfl hka hkb h

theorem eqTypeList_trans_of :
    ∀ (ts us vs : List TypeNode),
      (∀ t ∈ ts, ∀ u ∈ us, ∀ v ∈ vs,
        areTypesEqual t u = true → areTypesEqual u v = true → areTypesEqual t v = true) →
      eqTypeList ts us = true → eqTypeList us vs = true → eqTypeList ts vs = true
  | [], _, _, _, _, _ => by simp [eqTypeList]
  | _ :: _, [], _, _, h, _ => by simp [eqTypeList] at h
  | _ :: _, _ :: _, [], _, _, h2 => by simp [eqTypeList] at h2
  | t :: ts, u :: us, v :: vs, horacle, h, h2 => by
      simp only [eqTypeList, Bool.and_eq_true] at h h2 ⊢
      refine ⟨horacle t (List.mem_cons_self _ _) u (List.mem_cons_self _ _)
        v (List.mem_cons_self _ _) h.1 h2.1, ?_⟩
      exact eqTypeList_trans_of ts us vs
        (fun t1 ht1 u1 hu1 v1 hv1 => horacle t1 (List.mem_cons_of_mem _ ht1)
          u1 (List.mem_cons_of_mem _ hu1) v1 (List.mem_cons_of_mem _ hv1))
        h.2 h2.2

theorem areTypesEqual_trans_aux :
    ∀ (n : Nat) (a b c : TypeNode), sizeOf a + sizeOf b + sizeOf c ≤ n →
      areTypesEqual a b = true → areTypesEqual b c = true → areTypesEqual a c = true := by
  intro n
  induction n with
  | zero =>
      intro a b c hs _ _
      exact absurd hs (by
        have := sizeOf_TypeNode_pos a
        have := sizeOf_TypeNode_pos b
        have := sizeOf_TypeNode_pos c
        omega)
  | succ m ih =>
      intro a b c hs h h2
      match a, b with
      | .any, .any => exact h2
      | .number, .number => exact h2
      | .boolean, .boolean => exact h2
      | .str d1 e1 s1, .str d2 e2 s2 =>
          cases c with
          | str d3 e3 s3 =>
              simp only [areTypesEqual, Bool.and_eq_true, beq_iff_eq] at h h2 ⊢
              exact ⟨h.1.trans h2.1, h.2.trans h2.2⟩
          | any => simp [areTypesEqual] at h2
          | number => simp [areTypesEqual] at h2
          | boolean => simp [areTypesEqual] at h2
          | arr _ => simp [areTypesEqual] at h2
          | union _ => simp [areTypesEqual] at h2
          | obj _ => simp [areTypesEqual] at h2
      | .arr x, .arr y =>
          cases c with
          | arr z =>
              simp only [areTypesEqual] at h h2 ⊢
              have hx : sizeOf x < sizeOf (TypeNode.arr x) := by simp_arith
              have hy : sizeOf y < sizeOf (TypeNode.arr y) := by simp_arith
              have hz : sizeOf z < sizeOf (TypeNode.arr z) := by simp_arith
              exact ih x y z (by omega) h h2
          | any => simp [areTypesEqual] at h2
          | number => simp [areTypesEqual] at h2
          | boolean => simp [areTypesEqual] at h2
          | str _ _ _ => simp [areTypesEqual] at h2
          | union _ => simp [areTypesEqual] at h2
          | obj _ => simp [areTypesEqual] at h2
      | .union ts, .union us =>
          cases c with
          | union vs =>
              simp only [areTypesEqual, Bool.and_eq_true, beq_iff_eq] at h h2 ⊢
              refine ⟨h.1.trans h2.1, eqTypeList_trans_of ts us vs
                (fun t ht u hu v hv he1 he2 => ?_) h.2 h2.2⟩
              have h1 := sizeOf_mem_types ht
              have hu1 := sizeOf_mem_types hu
              have hv1 := sizeOf_mem_types hv
              exact ih t u v (by omega) he1 he2
          | any => simp [areTypesEqual] at h2
          | number => simp [areTypesEqual] at h2
          | boolean => simp [areTypesEqual] at h2
          | str _ _ _ => simp [areTypesEqual] at h2
          | arr _ => simp [areTypesEqual] at h2
          | obj _ => simp [areTypesEqual] at h2
      | .obj fa, .obj fb =>
          cases c with
          | obj fc =>
              simp only [areTypesEqual, Bool.and_eq_true, beq_iff_eq] at h h2 ⊢
              obtain ⟨hlen1, hf1⟩ := h
              obtain ⟨hlen2, hf2⟩ := h2
              refine ⟨hlen1.trans hlen2, eqFieldsIn_eq_true_iff.mpr (fun k ta ra hma => ?_)⟩
              obtain ⟨tb, rb, hgb, hr1, he1⟩ := eqFieldsIn_eq_true_iff.mp hf1 k ta ra hma
              have hmb := mem_of_getField hgb
              obtain ⟨tc, rc, hgc, hr2, he2⟩ := eqFieldsIn_eq_true_iff.mp hf2 k tb rb hmb
              refine ⟨tc, rc, hgc, hr1.trans hr2, ?_⟩
              have h1 := sizeOf_mem_fields hma
              have h2 := sizeOf_mem_fields hmb
              have h3 := sizeOf_getField_obj hgc
              exact ih ta tb tc (by omega) he1 he2
          | any => simp [areTypesEqual] at h2
          | number => simp [areTypesEqual] at h2
          | boolean => simp [areTypesEqual] at h2
          | str _ _ _ => simp [areTypesEqual] at h2
          | arr _ => simp [areTypesEqual] at h2
          | union _ => simp [areTypesEqual] at h2
      | .any, .number | .any, .boolean | .any, .str _ _ _ | .any, .arr _ | .any, .union _
      | .any, .obj _ | .number, .any | .number, .boolean | .number, .str _ _ _
      | .number, .arr _ | .number, .union _ | .number, .obj _ | .boolean, .any
      | .boolean, .number | .boolean, .str _ _ _ | .boolean, .arr _ | .boolean, .union _
      | .boolean, .obj _ | .str _ _ _, .any | .str _ _ _, .number | .str _ _ _, .boolean
      | .str _ _ _, .arr _ | .str _ _ _, .union _ | .str _ _ _, .obj _ | .arr _, .any
      | .arr _, .number | .arr _, .boolean | .arr _, .str _ _ _ | .arr _, .union _
      | .arr _, .obj _ | .union _, .any | .union _, .number | .union _, .boolean
      | .union _, .str _ _ _ | .union _, .arr _ | .union _, .obj _ | .obj _, .any
      | .obj _, .number | .obj _, .boolean | .obj _, .str _ _ _ | .obj _, .arr _
      | .obj _, .union _ => simp [areTypesEqual] at h

theorem areTypesEqual_trans {a b c : TypeNode} (h : areTypesEqual a b = true)
    (h2 : areTypesEqual b c = true) : areTypesEqual a c = true :=
  areTypesEqual_trans_aux (sizeOf a + sizeOf b + sizeOf c) a b c le_rfl h h2

/-! ## Lemmas about `eqUpTo` -/

theorem eqUpTo_refl_aux :
    ∀ (n : Nat) (x : TypeNode), sizeOf x ≤ n → keysOk x = true → eqUpTo x x = true := by
  intro n
  induction n with
  | zero =>
      intro x hx _
      exact absurd hx (by have := sizeOf_TypeNode_pos x; omega)
  | succ m ih =>
      intro x hx hk
      match x with
      | .any => simp [eqUpTo]
      | .number => simp [eqUpTo]
      | .boolean => simp [eqUpTo]
      | .str d e s =>
          simp only [eqUpTo, Bool.and_eq_true, beq_iff_eq]
          exact ⟨trivial, setEqStr_eq_true_iff.mpr ⟨fun x h => h, fun x h => h⟩⟩
      | .arr t =>
          have hs : sizeOf t ≤ m := by simp_arith at hx; omega
          simpa [eqUpTo] using ih t hs (by simpa [keysOk] using hk)
      | .union ts =>
          have hks := keysOkList_eq_true_iff.mp (by simpa [keysOk] using hk)
          simp only [eqUpTo, Bool.and_eq_true, beq_iff_eq]
          refine ⟨⟨trivial, ?_⟩, ?_⟩ <;>
            exact containsEq_eq_true_iff.mpr (fun t ht =>
              ⟨t, ht, areTypesEqual_refl (hks t ht)⟩)
      | .obj fs =>
          have hk2 : nodupStr (fs.map (fun e => e.1)) = true ∧ keysOkFields fs = true := by
            simpa [keysOk] using hk
          have hks := keysOkFields_eq_true_iff.mp hk2.2
          simp only [eqUpTo, Bool.and_eq_true, beq_iff_eq]
          refine ⟨⟨trivial, ?_⟩, ?_⟩ <;>
            refine fieldsUpTo_eq_true_iff.mpr (fun k t r hm => ?_) <;>
            · refine ⟨t, r, getField_of_mem_nodup hk2.1 hm, rfl, ?_⟩
              have := sizeOf_mem_fields hm
              exact ih t (by omega) (hks (k, t, r) hm)

theorem eqUpTo_refl {x : TypeNode} (hk : keysOk x = true) : eqUpTo x x = true :=
  eqUpTo_refl_aux (sizeOf x) x le_rfl hk

theorem eqUpTo_symm_aux :
    ∀ (n : Nat) (a b : TypeNode), sizeOf a + sizeOf b ≤ n →
      eqUpTo a b = true → eqUpTo b a = true := by
  intro n
  induction n with
  | zero =>
      intro a b hs _
      exact absurd hs (by have := sizeOf_TypeNode_pos a; have := sizeOf_TypeNode_pos b; omega)
  | succ m ih =>
      intro a b hs h
      match a, b with
      | .any, .any => exact h
      | .number, .number => exact h
      | .boolean, .boolean => exact h
      | .str d1 e1 s1, .str d2 e2 s2 =>
          simp only [eqUpTo, Bool.and_eq_true, beq_iff_eq, setEqStr_eq_true_iff] at h ⊢
          exact ⟨h.1.symm, h.2.2, h.2.1⟩
      | .arr x, .arr y =>
          simp only [eqUpTo] at h ⊢
          have hx : sizeOf x < sizeOf (TypeNode.arr x) := by simp_arith
          have hy : sizeOf y < sizeOf (TypeNode.arr y) := by simp_arith
          exact ih x y (by omega) h
      | .union ts, .union us =>
          simp only [eqUpTo, Bool.and_eq_true, beq_iff_eq] at h ⊢
          obtain ⟨⟨hl, h1⟩, h2⟩ := h
          exact ⟨⟨hl.symm, h2⟩, h1⟩
      | .obj fa, .obj fb =>
          simp only [eqUpTo, Bool.and_eq_true, beq_iff_eq] at h ⊢
          obtain ⟨⟨hl, h1⟩, h2⟩ := h
          exact ⟨⟨hl.symm, h2⟩, h1⟩
      | .any, .number | .any, .boolean | .any, .str _ _ _ | .any, .arr _ | .any, .union _
      | .any, .obj _ | .number, .any | .number, .boolean | .number, .str _ _ _
      | .number, .arr _ | .number, .union _ | .number, .obj _ | .boolean, .any
      | .boolean, .number | .boolean, .str _ _ _ | .boolean, .arr _ | .boolean, .union _
      | .boolean, .obj _ | .str _ _ _, .any | .str _ _ _, .number | .str _ _ _, .boolean
      | .str _ _ _, .arr _ | .str _ _ _, .union _ | .str _ _ _, .obj _ | .arr _, .any
      | .arr _, .number | .arr _, .boolean | .arr _, .str _ _ _ | .arr _, .union _
      | .arr _, .obj _ | .union _, .any | .union _, .number | .union _, .boolean
      | .union _, .str _ _ _ | .union _, .arr _ | .union _, .obj _ | .obj _, .any
      | .obj _, .number | .obj _, .boolean | .obj _, .str _ _ _ | .obj _, .arr _
      | .obj _, .union _ => simp [eqUpTo] at h

theorem eqUpTo_symm {a b : TypeNode} (h : eqUpTo a b = true) : eqUpTo b a = true :=
  eqUpTo_symm_aux (sizeOf a + sizeOf b) a b le_rfl h

theorem eqTypeList_to_exists :
    ∀ (ts us : List TypeNode), eqTypeList ts us = true →
      ∀ t ∈ ts, ∃ u ∈ us, areTypesEqual t u = true
  | [], _, _ => by simp
  | _ :: _, [], h => by simp [eqTypeList] at h
  | t :: ts, u :: us, h => by
      simp only [eqTypeList, Bool.and_eq_true] at h
      intro t1 ht1
      rcases List.mem_cons.mp ht1 with rfl | ht1
      · exact ⟨u, List.mem_cons_self _ _, h.1⟩
      · obtain ⟨u1, hu1, he⟩ := eqTypeList_to_exists ts us h.2 t1 ht1
        exact ⟨u1, List.mem_cons_of_mem _ hu1, he⟩

theorem areTypesEqual_imp_eqUpTo_aux :
    ∀ (n : Nat) (a b : TypeNode), sizeOf a + sizeOf b ≤ n →
      keysOk a = true → keysOk b = true →
      areTypesEqual a b = true → eqUpTo a b = true := by
  intro n
  induction n with
  | zero =>
      intro a b hs _ _ _
      exact absurd hs (by have := sizeOf_TypeNode_pos a; have := sizeOf_TypeNode_pos b; omega)
  | succ m ih =>
      intro a b hs hka hkb h
      match a, b with
      | .any, .any => simp [eqUpTo]
      | .number, .number => simp [eqUpTo]
      | .boolean, .boolean => simp [eqUpTo]
      | .str d1 e1 s1, .str d2 e2 s2 =>
          simp only [areTypesEqual, Bool.and_eq_true, beq_iff_eq] at h
          simp only [eqUpTo, Bool.and_eq_true, beq_iff_eq, setEqStr_eq_true_iff]
          rw [h.2]
          exact ⟨h.1, fun x hx => hx, fun x hx => hx⟩
      | .arr x, .arr y =>
          simp only [areTypesEqual] at h
          simp only [eqUpTo]
          have hx : sizeOf x < sizeOf (TypeNode.arr x) := by simp_arith
          have hy : sizeOf y < sizeOf (TypeNode.arr y) := by simp_arith
          exact ih x y (by omega) (by simpa [keysOk] using hka) (by simpa [keysOk] using hkb) h
      | .union ts, .union us =>
          have hsymm := areTypesEqual_symm hka hkb h
          simp only [areTypesEqual, Bool.and_eq_true, beq_iff_eq] at h hsymm
          simp only [eqUpTo, Bool.and_eq_true, beq_iff_eq]
          refine ⟨⟨h.1, ?_⟩, ?_⟩
          · exact containsEq_eq_true_iff.mpr (eqTypeList_to_exists ts us h.2)
          · exact containsEq_eq_true_iff.mpr (eqTypeList_to_exists us ts hsymm.2)
      | .obj fa, .obj fb =>
          have hsymm := areTypesEqual_symm hka hkb h
          have hka2 : nodupStr (fa.map (fun e => e.1)) = true ∧ keysOkFields fa = true := by
            simpa [keysOk] using hka
          have hkb2 : nodupStr (fb.map (fun e => e.1)) = true ∧ keysOkFields fb = true := by
            simpa [keysOk] using hkb
          have hkfa := keysOkFields_eq_true_iff.mp hka2.2
          have hkfb := keysOkFields_eq_true_iff.mp hkb2.2
          simp only [areTypesEqual, Bool.and_eq_true, beq_iff_eq] at h hsymm
          simp only [eqUpTo, Bool.and_eq_true, beq_iff_eq]
          refine ⟨⟨h.1, ?_⟩, ?_⟩
          · refine fieldsUpTo_eq_true_iff.mpr (fun k t r hm => ?_)
            obtain ⟨tb, rb, hgb, hr, he⟩ := eqFieldsIn_eq_true_iff.mp h.2 k t r hm
            refine ⟨tb, rb, hgb, hr, ?_⟩
            have h1 := sizeOf_mem_fields hm
            have h2 := sizeOf_getField_obj hgb
            exact ih t tb (by omega) (hkfa (k, t, r) hm)
              (hkfb (k, tb, rb) (mem_of_getField hgb)) he
          · refine fieldsUpTo_eq_true_iff.mpr (fun k t r hm => ?_)
            obtain ⟨ta, ra, hga, hr, he⟩ := eqFieldsIn_eq_true_iff.mp hsymm.2 k t r hm
            refine ⟨ta, ra, hga, hr, ?_⟩
            have h1 := sizeOf_mem_fields hm
            have h2 := sizeOf_getField_obj hga
            exact ih t ta (by omega) (hkfb (k, t, r) hm)
              (hkfa (k, ta, ra) (mem_of_getField hga)) he
      | .any, .number | .any, .boolean | .any, .str _ _ _ | .any, .arr _ | .any, .union _
      | .any, .obj _ | .number, .any | .number, .boolean | .number, .str _ _ _
      | .number, .arr _ | .number, .union _ | .number, .obj _ | .boolean, .any
      | .boolean, .number | .boolean, .str _ _ _ | .boolean, .arr _ | .boolean, .union _
      | .boolean, .obj _ | .str _ _ _, .any | .str _ _ _, .number | .str _ _ _, .boolean
      | .str _ _ _, .arr _ | .str _ _ _, .union _ | .str _ _ _, .obj _ | .arr _, .any
      | .arr _, .number | .arr _, .boolean | .arr _, .str _ _ _ | .arr _, .union _
      | .arr _, .obj _ | .union _, .any | .union _, .number | .union _, .boolean
      | .union _, .str _ _ _ | .union _, .arr _ | .union _, .obj _ | .obj _, .any
      | .obj _, .number | .obj _, .boolean | .obj _, .str _ _ _ | .obj _, .arr _
      | .obj _, .union _ => simp [areTypesEqual] at h

theorem areTypesEqual_imp_eqUpTo {a b : TypeNode} (hka : keysOk a = true)
    (hkb : keysOk b = true) (h : areTypesEqual a b = true) : eqUpTo a b = true :=
  areTypesEqual_imp_eqUpTo_aux (sizeOf a + sizeOf b) a b le_rfl hka hkb h

/-! ## Characterizing the object merge -/

/-- The per-key result of the object-merge loop, as a function of the two
lookups (mirrors the four-way branch of `unifyTypes`'s object case). -/
def mergeLookup : Option (TypeNode × Bool) → Option (TypeNode × Bool) → Option (TypeNode × Bool)
  | some (ta, ra), some (tb, rb) => some (unify ta tb, ra && rb)
  | some (ta, _), none => some (ta, false)
  | none, some (tb, _) => some (tb, false)
  | none, none => none

theorem unifyFields_cons {fa fb : List (String × TypeNode × Bool)} (k0 : String)
    (rest : List String) :
    unifyFields (k0 :: rest) fa fb =
      (match getField k0 fa, getField k0 fb with
       | some (ta, ra), some (tb, rb) => [(k0, unify ta tb, ra && rb)]
       | some (ta, _), none => [(k0, ta, false)]
       | none, some (tb, _) => [(k0, tb, false)]
       | none, none => []) ++ unifyFields rest fa fb := by
  rw [unifyFields]
  congr 1
  split <;> rename_i h1 h2 <;> simp [h1, h2]

theorem getField_unifyFields {fa fb : List (String × TypeNode × Bool)} :
    ∀ {keys : List String}, nodupStr keys = true → ∀ k,
      getField k (unifyFields keys fa fb) =
        if k ∈ keys then mergeLookup (getField k fa) (getField k fb) else none
  | [], _, k => by simp [unifyFields]
  | k0 :: rest, hnd, k => by
      have hnd2 : nodupStr rest = true := by
        simp only [nodupStr, Bool.and_eq_true] at hnd
        exact hnd.2
      rw [unifyFields_cons, getField_append, getField_unifyFields hnd2 k]
      by_cases hk : k0 = k
      · subst hk
        have hk0nr : k0 ∉ rest := by
          have hnd1 := hnd
          simp only [nodupStr, Bool.and_eq_true, Bool.not_eq_true'] at hnd1
          intro hc
          rw [List.contains_eq_any_beq, List.any_eq_false] at hnd1
          exact hnd1.1 k0 hc (by simp)
        cases hga : getField k0 fa with
        | none =>
            cases hgb : getField k0 fb with
            | none => simp [mergeLookup, hk0nr]
            | some pb =>
                obtain ⟨tb, rb⟩ := pb
                simp [mergeLookup, hk0nr, getField_cons]
        | some pa =>
            obtain ⟨ta, ra⟩ := pa
            cases hgb : getField k0 fb with
            | none => simp [mergeLookup, hk0nr, getField_cons]
            | some pb =>
                obtain ⟨tb, rb⟩ := pb
                simp [mergeLookup, hk0nr, getField_cons]
      · cases hga : getField k0 fa with
        | none =>
            cases hgb : getField k0 fb with
            | none => by_cases hr : k ∈ rest <;> simp [hr, Ne.symm hk]
            | some pb =>
                obtain ⟨tb, rb⟩ := pb
                by_cases hr : k ∈ rest <;> simp [getField_cons, hk, hr, Ne.symm hk]
        | some pa =>
            obtain ⟨ta, ra⟩ := pa
            cases hgb : getField k0 fb with
            | none => by_cases hr : k ∈ rest <;> simp [getField_cons, hk, hr, Ne.symm hk]
            | some pb =>
                obtain ⟨tb, rb⟩ := pb
                by_cases hr : k ∈ rest <;> simp [getField_cons, hk, hr, Ne.symm hk]

theorem unifyFields_map_fst {fa fb : List (String × TypeNode × Bool)} :
    ∀ (keys : List String),
      (unifyFields keys fa fb).map (fun e => e.1) =
        keys.filter (fun k => (getField k fa).isSome || (getField k fb).isSome)
  | [] => by simp [unifyFields]
  | k0 :: rest => by
      rw [unifyFields_cons, List.map_append, unifyFields_map_fst rest, List.filter_cons]
      cases hga : getField k0 fa with
      | none =>
          cases hgb : getField k0 fb with
          | none => simp
          | some pb => obtain ⟨tb, rb⟩ := pb; simp
      | some pa =>
          obtain ⟨ta, ra⟩ := pa
          cases hgb : getField k0 fb with
          | none => simp
          | some pb => obtain ⟨tb, rb⟩ := pb; simp

/-! ## Preservation of the representation invariant (`keysOk`) -/

theorem isAnyType_eq_true_iff {t : TypeNode} : isAnyType t = true ↔ t = .any := by
  cases t <;> simp [isAnyType]

theorem isUnionType_eq_true_iff {t : TypeNode} :
    isUnionType t = true ↔ ∃ ts, t = .union ts := by
  cases t <;> simp [isUnionType]

theorem keysOk_foldl_normStep :
    ∀ (l acc : List TypeNode), (∀ t ∈ l, keysOk t = true) → (∀ t ∈ acc, keysOk t = true) →
      ∀ t ∈ l.foldl normStep acc, keysOk t = true
  | [], acc, _, hacc, t, ht => hacc t ht
  | t0 :: rest, acc, hl, hacc, t, ht => by
      have hl0 := hl t0 (List.mem_cons_self _ _)
      have hlr : ∀ u ∈ rest, keysOk u = true := fun u hu => hl u (List.mem_cons_of_mem _ hu)
      rw [List.foldl_cons] at ht
      by_cases hu : isUnionType t0 = true
      · obtain ⟨inner, rfl⟩ := isUnionType_eq_true_iff.mp hu
        rw [normStep_union] at ht
        refine keysOk_foldl_normStep rest (acc ++ inner) hlr ?_ t ht
        intro u hu2
        rcases List.mem_append.mp hu2 with h | h
        · exact hacc u h
        · exact keysOkList_eq_true_iff.mp (by simpa [keysOk] using hl0) u h
      · rw [Bool.not_eq_true] at hu
        rw [normStep_nonunion hu] at ht
        by_cases hg : acc.any (fun e => areTypesEqual e t0) = true
        · rw [if_pos hg] at ht
          exact keysOk_foldl_normStep rest acc hlr hacc t ht
        · rw [if_neg hg] at ht
          refine keysOk_foldl_normStep rest (acc ++ [t0]) hlr ?_ t ht
          intro u hu2
          rcases List.mem_append.mp hu2 with h | h
          · exact hacc u h
          · rw [List.mem_singleton] at h
            subst h
            exact hl0

theorem keysOk_normalizeUnionType {l : List TypeNode} (h : ∀ t ∈ l, keysOk t = true) :
    keysOk (normalizeUnionType l) = true := by
  by_cases hany : l.any isAnyType = true
  · rw [normalizeUnionType_of_any hany]
    simp [keysOk]
  · rw [Bool.not_eq_true] at hany
    have hmem := keysOk_foldl_normStep l [] h (by simp)
    rcases hf : l.foldl normStep [] with _ | ⟨a, _ | ⟨b, r⟩⟩
    · rw [normalizeUnionType_eq_union hany (by rw [hf]; simp), hf]
      simp [keysOk, keysOkList]
    · rw [normalizeUnionType_of_singleton hany hf]
      exact hmem a (by rw [hf]; simp)
    · rw [normalizeUnionType_eq_union hany (by rw [hf]; simp), hf]
      have : keysOkList (a :: b :: r) = true :=
        keysOkList_eq_true_iff.mpr (fun t ht => hmem t (by rw [hf]; exact ht))
      simpa [keysOk] using this

theorem mem_unifyFields {fa fb : List (String × TypeNode × Bool)} {k : String} {t : TypeNode}
    {r : Bool} :
    ∀ {keys : List String}, (k, t, r) ∈ unifyFields keys fa fb →
      (∃ ta ra tb rb, getField k fa = some (ta, ra) ∧ getField k fb = some (tb, rb) ∧
          t = unify ta tb) ∨
        (∃ ra, getField k fa = some (t, ra)) ∨ (∃ rb, getField k fb = some (t, rb))
  | [], h => by simp [unifyFields] at h
  | k0 :: rest, h => by
      rw [unifyFields_cons] at h
      rcases List.mem_append.mp h with h | h
      · cases hga : getField k0 fa with
        | none =>
            cases hgb : getField k0 fb with
            | none => rw [hga, hgb] at h; simp at h
            | some pb =>
                obtain ⟨tb, rb⟩ := pb
                rw [hga, hgb] at h
                simp only [List.mem_singleton] at h
                obtain ⟨rfl, rfl, rfl⟩ : k = k0 ∧ t = tb ∧ r = false := by simpa using h
                exact Or.inr (Or.inr ⟨rb, hgb⟩)
        | some pa =>
            obtain ⟨ta, ra⟩ := pa
            cases hgb : getField k0 fb with
            | none =>
                rw [hga, hgb] at h
                simp only [List.mem_singleton] at h
                obtain ⟨rfl, rfl, rfl⟩ : k = k0 ∧ t = ta ∧ r = false := by simpa using h
                exact Or.inr (Or.inl ⟨ra, hga⟩)
            | some pb =>
                obtain ⟨tb, rb⟩ := pb
                rw [hga, hgb] at h
                simp only [List.mem_singleton] at h
                obtain ⟨rfl, rfl, rfl⟩ : k = k0 ∧ t = unify ta tb ∧ r = (ra && rb) := by
                  simpa using h
                exact Or.inl ⟨ta, ra, tb, rb, hga, hgb, rfl⟩
      · exact mem_unifyFields h

theorem keysOk_unify_aux :
    ∀ (n : Nat) (a b : TypeNode), sizeOf a + sizeOf b ≤ n →
      keysOk a = true → keysOk b = true → keysOk (unify a b) = true := by
  intro n
  induction n with
  | zero =>
      intro a b hs _ _
      exact absurd hs (by have := sizeOf_TypeNode_pos a; have := sizeOf_TypeNode_pos b; omega)
  | succ m ih =>
      intro a b hs hka hkb
      by_cases heq : areTypesEqual a b = true
      · rw [unify_of_equal heq]; exact hka
      rw [Bool.not_eq_true] at heq
      by_cases hA : isAnyType a = true
      · obtain rfl := isAnyType_eq_true_iff.mp hA
        rw [unify_any_left]
        simp [keysOk]
      by_cases hB : isAnyType b = true
      · obtain rfl := isAnyType_eq_true_iff.mp hB
        rw [unify_any_right]
        simp [keysOk]
      rw [Bool.not_eq_true] at hA hB
      by_cases hUa : isUnionType a = true
      · obtain ⟨ts, rfl⟩ := isUnionType_eq_true_iff.mp hUa
        rw [unify_union_left heq hB]
        refine keysOk_normalizeUnionType (fun t ht => ?_)
        rcases List.mem_append.mp ht with h | h
        · exact keysOkList_eq_true_iff.mp (by simpa [keysOk] using hka) t h
        · rw [List.mem_singleton] at h; subst h; exact hkb
      by_cases hUb : isUnionType b = true
      · obtain ⟨us, rfl⟩ := isUnionType_eq_true_iff.mp hUb
        rw [Bool.not_eq_true] at hUa
        rw [unify_union_right heq hA hUa]
        refine keysOk_normalizeUnionType (fun t ht => ?_)
        rcases List.mem_cons.mp ht with h | h
        · subst h; exact hka
        · exact keysOkList_eq_true_iff.mp (by simpa [keysOk] using hkb) t h
      rw [Bool.not_eq_true] at hUa hUb
      match a, b with
      | .str d1 e1 s1, .str d2 e2 s2 =>
          rw [unify_str_str heq]
          simp [keysOk]
      | .arr x, .arr y =>
          rw [unify_arr_arr heq]
          have hx : sizeOf x < sizeOf (TypeNode.arr x) := by simp_arith
          have hy : sizeOf y < sizeOf (TypeNode.arr y) := by simp_arith
          simpa [keysOk] using ih x y (by omega) (by simpa [keysOk] using hka)
            (by simpa [keysOk] using hkb)
      | .obj fa, .obj fb =>
          rw [unify_obj_obj heq]
          have hka2 : nodupStr (fa.map (fun e => e.1)) = true ∧ keysOkFields fa = true := by
            simpa [keysOk] using hka
          have hkb2 : nodupStr (fb.map (fun e => e.1)) = true ∧ keysOkFields fb = true := by
            simpa [keysOk] using hkb
          have hkfa := keysOkFields_eq_true_iff.mp hka2.2
          have hkfb := keysOkFields_eq_true_iff.mp hkb2.2
          simp only [keysOk, Bool.and_eq_true]
          constructor
          · rw [unifyFields_map_fst]
            exact nodupStr_filter (nodupStr_firstSeenDedup _)
          · refine keysOkFields_eq_true_iff.mpr (fun e he => ?_)
            obtain ⟨k, t, r⟩ := e
            rcases mem_unifyFields he with
              ⟨ta, ra, tb, rb, hga, hgb, rfl⟩ | ⟨ra, hga⟩ | ⟨rb, hgb⟩
            · have h1 := sizeOf_getField_obj hga
              have h2 := sizeOf_getField_obj hgb
              exact ih ta tb (by omega) (hkfa _ (mem_of_getField hga))
                (hkfb _ (mem_of_getField hgb))
            · exact hkfa (k, t, ra) (mem_of_getField hga)
            · exact hkfb (k, t, rb) (mem_of_getField hgb)
      | .any, .number | .any, .boolean | .any, .str _ _ _ | .any, .arr _ | .any, .union _
      | .any, .obj _ | .number, .any | .number, .boolean | .number, .str _ _ _
      | .number, .arr _ | .number, .union _ | .number, .obj _ | .boolean, .any
      | .boolean, .number | .boolean, .str _ _ _ | .boolean, .arr _ | .boolean, .union _
      | .boolean, .obj _ | .str _ _ _, .any | .str _ _ _, .number | .str _ _ _, .boolean
      | .str _ _ _, .arr _ | .str _ _ _, .union _ | .str _ _ _, .obj _ | .arr _, .any
      | .arr _, .number | .arr _, .boolean | .arr _, .str _ _ _ | .arr _, .union _
      | .arr _, .obj _ | .union _, .any | .union _, .number | .union _, .boolean
      | .union _, .str _ _ _ | .union _, .arr _ | .union _, .obj _ | .obj _, .any
      | .obj _, .number | .obj _, .boolean | .obj _, .str _ _ _ | .obj _, .arr _
      | .obj _, .union _ | .any, .any | .number, .number | .boolean, .boolean =>
          first
          | (refine absurd hA ?_; simp [isAnyType]; done)
          | (refine absurd hB ?_; simp [isAnyType]; done)
          | (refine absurd hUa ?_; simp [isUnionType]; done)
          | (refine absurd hUb ?_; simp [isUnionType]; done)
          | (refine absurd heq ?_; simp [areTypesEqual]; done)
          | (rw [unify.eq_def]
             simp only [heq, Bool.false_eq_true, if_false, hA, hB, Bool.or_self]
             refine keysOk_normalizeUnionType (fun t ht => ?_)
             rcases List.mem_cons.mp ht with h | h
             · subst h; exact hka
             · rw [List.mem_singleton] at h; subst h; exact hkb)

theorem keysOk_unify {a b : TypeNode} (hka : keysOk a = true) (hkb : keysOk b = true) :
    keysOk (unify a b) = true :=
  keysOk_unify_aux (sizeOf a + sizeOf b) a b le_rfl hka hkb

theorem keysOk_unifyTypesMany {l : List TypeNode} (h : ∀ t ∈ l, keysOk t = true) :
    keysOk (unifyTypesMany l) = true := by
  cases l with
  | nil => simp [unifyTypesMany, keysOk]
  | cons x xs =>
      rw [unifyTypesMany]
      have hx := h x (List.mem_cons_self _ _)
      have hxs : ∀ t ∈ xs, keysOk t = true := fun t ht => h t (List.mem_cons_of_mem _ ht)
      clear h
      induction xs generalizing x with
      | nil => exact hx
      | cons y ys ihl =>
          rw [List.foldl_cons]
          exact ihl (unify x y)
            (keysOk_unify hx (hxs y (List.mem_cons_self _ _)))
            (fun t ht => hxs t (List.mem_cons_of_mem _ ht))

/-! ## Inference lemmas -/

theorem sizeOf_JSON_pos (v : JSON) : 0 < sizeOf v := by
  cases v <;> simp_arith

theorem sizeOf_mem_arr {v : JSON} {elems : List JSON} (h : v ∈ elems) :
    sizeOf v < sizeOf (JSON.arr elems) := by
  have := List.sizeOf_lt_of_mem h
  simp only [JSON.arr.sizeOf_spec]
  omega

theorem sizeOf_mem_obj {k : String} {v : JSON} {kvs : List (String × JSON)}
    (h : (k, v) ∈ kvs) : sizeOf v < sizeOf (JSON.obj kvs) := by
  have := List.sizeOf_lt_of_mem h
  simp only [Prod.mk.sizeOf_spec] at this
  simp only [JSON.obj.sizeOf_spec]
  omega

theorem inferList_eq_map (elems : List JSON) (o : InferOptions) :
    inferList elems o = elems.map (fun v => inferTypeFromValue v o) := by
  induction elems with
  | nil => simp [inferList]
  | cons v vs ih => rw [inferList, ih, List.map_cons]

theorem inferFields_map_fst (kvs : List (String × JSON)) (o : InferOptions) :
    (inferFields kvs o).map (fun e => e.1) = kvs.map (fun e => e.1) := by
  induction kvs with
  | nil => simp [inferFields]
  | cons e rest ih =>
      obtain ⟨k, v⟩ := e
      rw [inferFields, List.map_cons, ih, List.map_cons]

theorem mem_inferFields {e : String × TypeNode × Bool} :
    ∀ {kvs : List (String × JSON)} {o : InferOptions}, e ∈ inferFields kvs o →
      ∃ k v, (k, v) ∈ kvs ∧ e = (k, inferTypeFromValue v o, true)
  | [], o, h => by simp [inferFields] at h
  | (k, v) :: rest, o, h => by
      rw [inferFields] at h
      rcases List.mem_cons.mp h with h | h
      · exact ⟨k, v, List.mem_cons_self _ _, h⟩
      · obtain ⟨k1, v1, hm, he⟩ := mem_inferFields h
        exact ⟨k1, v1, List.mem_cons_of_mem _ hm, he⟩

theorem inferTypeFromValue_arr (elems : List JSON) (o : InferOptions) :
    inferTypeFromValue (.arr elems) o =
      if elems.isEmpty then .arr .any
      else if arrayContainsOnlyStrings elems
          && shouldUseStringEnumForArray (asStrings elems) o then
        .arr (.str false (some (firstSeenDedup (asStrings elems))) none)
      else .arr (unifyTypesMany (inferList elems o)) := by
  rw [inferTypeFromValue]

theorem keysOk_infer_aux :
    ∀ (n : Nat) (v : JSON) (o : InferOptions), sizeOf v ≤ n → jsonKeysOk v = true →
      keysOk (inferTypeFromValue v o) = true := by
  intro n
  induction n with
  | zero =>
      intro v o hv _
      exact absurd hv (by have := sizeOf_JSON_pos v; omega)
  | succ m ih =>
      intro v o hv hj
      match v with
      | .null => simp [inferTypeFromValue, keysOk]
      | .str s => simp [inferTypeFromValue, keysOk]
      | .num q => simp [inferTypeFromValue, keysOk]
      | .bool b => simp [inferTypeFromValue, keysOk]
      | .arr elems =>
          rw [inferTypeFromValue_arr]
          by_cases h1 : elems.isEmpty
          · simp [h1, keysOk]
          · by_cases h2 : arrayContainsOnlyStrings elems
                && shouldUseStringEnumForArray (asStrings elems) o
            · simp [h1, h2, keysOk]
            · simp only [h1, h2, Bool.false_eq_true, if_false]
              have hju := jsonKeysOkList_eq_true_iff.mp (by simpa [jsonKeysOk] using hj)
              have : keysOk (unifyTypesMany (inferList elems o)) = true := by
                refine keysOk_unifyTypesMany (fun t ht => ?_)
                rw [inferList_eq_map] at ht
                obtain ⟨w, hw, rfl⟩ := List.mem_map.mp ht
                have := sizeOf_mem_arr hw
                exact ih w o (by omega) (hju w hw)
              simpa [keysOk] using this
      | .obj kvs =>
          rw [inferTypeFromValue]
          have hj2 : nodupStr (kvs.map (fun e => e.1)) = true
              ∧ jsonKeysOkFields kvs = true := by
            simpa [jsonKeysOk] using hj
          have hjf := jsonKeysOkFields_eq_true_iff.mp hj2.2
          simp only [keysOk, Bool.and_eq_true]
          constructor
          · rw [inferFields_map_fst]
            exact hj2.1
          · refine keysOkFields_eq_true_iff.mpr (fun e he => ?_)
            obtain ⟨k, w, hm, rfl⟩ := mem_inferFields he
            have := sizeOf_mem_obj hm
            exact ih w o (by omega) (hjf (k, w) hm)

/-! ## Well-formedness (`wfNode`) helpers -/

theorem wfNode_union_iff {ts : List TypeNode} :
    wfNode (.union ts) = true ↔
      2 ≤ ts.length ∧ (∀ t ∈ ts, isUnionType t = false ∧ isAnyType t = false) ∧
        pairwiseNE ts = true ∧ ∀ t ∈ ts, wfNode t = true := by
  simp [wfNode, wfNodeList_eq_true_iff, List.all_eq_true, and_assoc]

theorem wfNode_obj_parts {fs : List (String × TypeNode × Bool)}
    (h : wfNode (.obj fs) = true) :
    nodupStr (fs.map (fun e => e.1)) = true ∧ ∀ e ∈ fs, wfNode e.2.1 = true := by
  have h2 : nodupStr (fs.map (fun e => e.1)) = true ∧ wfNodeFields fs = true := by
    simpa [wfNode] using h
  exact ⟨h2.1, wfNodeFields_eq_true_iff.mp h2.2⟩

theorem wf_field_type {fs : List (String × TypeNode × Bool)} {k : String} {t : TypeNode}
    {r : Bool} (h : wfNode (.obj fs) = true) (hg : getField k fs = some (t, r)) :
    wfNode t = true :=
  (wfNode_obj_parts h).2 (k, t, r) (mem_of_getField hg)

theorem wfNode_imp_keysOk_aux :
    ∀ (n : Nat) (x : TypeNode), sizeOf x ≤ n → wfNode x = true → keysOk x = true := by
  intro n
  induction n with
  | zero =>
      intro x hx _
      exact absurd hx (by have := sizeOf_TypeNode_pos x; omega)
  | succ m ih =>
      intro x hx hw
      match x with
      | .any => simp [keysOk]
      | .number => simp [keysOk]
      | .boolean => simp [keysOk]
      | .str d e s => simp [keysOk]
      | .arr t =>
          have : sizeOf t < sizeOf (TypeNode.arr t) := by simp_arith
          simp only [keysOk]
          exact ih t (by omega) (by simpa [wfNode] using hw)
      | .union ts =>
          obtain ⟨_, _, _, hwm⟩ := wfNode_union_iff.mp hw
          simp only [keysOk]
          refine keysOkList_eq_true_iff.mpr (fun t ht => ?_)
          have := sizeOf_mem_types ht
          exact ih t (by omega) (hwm t ht)
      | .obj fs =>
          obtain ⟨hnd, hwm⟩ := wfNode_obj_parts hw
          simp only [keysOk, Bool.and_eq_true]
          refine ⟨hnd, keysOkFields_eq_true_iff.mpr (fun e he => ?_)⟩
          obtain ⟨k, t, r⟩ := e
          have := sizeOf_mem_fields he
          exact ih t (by omega) (hwm (k, t, r) he)

theorem wfNode_imp_keysOk {x : TypeNode} (h : wfNode x = true) : keysOk x = true :=
  wfNode_imp_keysOk_aux (sizeOf x) x le_rfl h

theorem length_eq_of_nodup_of_mem_iff {l1 l2 : List String} (h1 : l1.Nodup) (h2 : l2.Nodup)
    (hm : ∀ x, x ∈ l1 ↔ x ∈ l2) : l1.length = l2.length := by
  rw [← List.toFinset_card_of_nodup h1, ← List.toFinset_card_of_nodup h2]
  congr 1
  ext x
  simp only [List.mem_toFinset]
  exact hm x

/-! ## Commutativity of the union extension -/

theorem foldl_normStep_nil_of_normalized {ts : List TypeNode}
    (hnu : ∀ t ∈ ts, isUnionType t = false) (hpw : pairwiseNE ts = true) :
    ts.foldl normStep [] = ts := by
  rw [foldl_normStep_eq_filter ts [] hnu hpw]
  simp

theorem filter_drop_one_length {x : TypeNode} :
    ∀ {ts : List TypeNode}, pairwiseNE ts = true → (∀ t ∈ ts, keysOk t = true) →
      keysOk x = true → ∀ x0 ∈ ts, areTypesEqual x x0 = true →
      (ts.filter (fun t => !areTypesEqual x t)).length + 1 = ts.length := by
  intro ts
  induction ts with
  | nil => intro _ _ _ x0 h; simp at h
  | cons t rest ihl =>
      intro hpw hk hkx x0 hx0 hxe
      obtain ⟨hpair, hpwrest⟩ := pairwiseNE_cons_iff.mp hpw
      by_cases hxt : areTypesEqual x t = true
      · rw [List.filter_cons]
        simp only [hxt, Bool.not_true, Bool.false_eq_true, if_false]
        have hall : ∀ u ∈ rest, (!areTypesEqual x u) = true := by
          intro u hu
          simp only [Bool.not_eq_true']
          cases hxu : areTypesEqual x u with
          | false => rfl
          | true =>
              have h1 : areTypesEqual t x = true :=
                areTypesEqual_symm hkx (hk t (List.mem_cons_self _ _)) hxt
              have h2 : areTypesEqual t u = true := areTypesEqual_trans h1 hxu
              exact absurd h2 (by simp [(hpair u hu).1])
        rw [List.filter_eq_self.mpr hall]
        simp
      · rw [List.filter_cons]
        simp only [hxt]
        have hx0r : x0 ∈ rest := by
          rcases List.mem_cons.mp hx0 with rfl | h
          · exact absurd hxe (by simp [hxt])
          · exact h
        have := ihl hpwrest (fun u hu => hk u (List.mem_cons_of_mem _ hu)) hkx x0 hx0r hxe
        simp only [Bool.not_eq_true', Bool.not_eq_false]
        rw [if_pos (by simp [hxt])]
        simp only [List.length_cons]
        omega

theorem norm_append_comm {ts : List TypeNode} {x : TypeNode}
    (hna : ∀ t ∈ ts, isUnionType t = false ∧ isAnyType t = false)
    (hpw : pairwiseNE ts = true) (hwk : ∀ t ∈ ts, keysOk t = true)
    (hlen : 2 ≤ ts.length) (hx_nu : isUnionType x = false) (hx_na : isAnyType x = false)
    (hx_k : keysOk x = true) :
    eqUpTo (normalizeUnionType (ts ++ [x])) (normalizeUnionType (x :: ts)) = true := by
  have hnu : ∀ t ∈ ts, isUnionType t = false := fun t ht => (hna t ht).1
  have hany1 : (ts ++ [x]).any isAnyType = false := by
    rw [List.any_eq_false]
    intro t ht
    rcases List.mem_append.mp ht with h | h
    · simp [(hna t h).2]
    · rw [List.mem_singleton] at h; subst h; simp [hx_na]
  have hany2 : (x :: ts).any isAnyType = false := by
    rw [List.any_eq_false]
    intro t ht
    rcases List.mem_cons.mp ht with rfl | h
    · simp [hx_na]
    · simp [(hna t h).2]
  have hflat1 : (ts ++ [x]).foldl normStep [] =
      ts ++ (if ts.any (fun e => areTypesEqual e x) then [] else [x]) := by
    rw [List.foldl_append, foldl_normStep_nil_of_normalized hnu hpw]
    show normStep ts x = _
    rw [normStep_nonunion hx_nu]
    cases hg : ts.any (fun e => areTypesEqual e x) <;> simp
  have hflat2 : (x :: ts).foldl normStep [] = x :: ts.filter (fun t => !areTypesEqual x t) := by
    rw [List.foldl_cons]
    have h0 : normStep [] x = [x] := by
      rw [normStep_nonunion hx_nu]; simp
    rw [h0, foldl_normStep_eq_filter ts [x] hnu hpw]
    simp only [List.singleton_append]
    congr 1
    apply List.filter_congr
    intro t ht
    simp
  by_cases hdup : ts.any (fun e => areTypesEqual e x) = true
  · obtain ⟨x0, hx0m, hx0e⟩ := List.any_eq_true.mp hdup
    have hx0e2 : areTypesEqual x x0 = true :=
      areTypesEqual_symm (hwk x0 hx0m) hx_k hx0e
    have hcount := filter_drop_one_length hpw hwk hx_k x0 hx0m hx0e2
    have hr1 : normalizeUnionType (ts ++ [x]) = .union ts := by
      rw [normalizeUnionType_eq_union hany1
        (by rw [hflat1, if_pos hdup]; simp only [List.append_nil]; omega), hflat1,
        if_pos hdup, List.append_nil]
    have hr2 : normalizeUnionType (x :: ts) =
        .union (x :: ts.filter (fun t => !areTypesEqual x t)) := by
      rw [normalizeUnionType_eq_union hany2
        (by rw [hflat2]; simp only [List.length_cons]; omega), hflat2]
    rw [hr1, hr2]
    simp only [eqUpTo, Bool.and_eq_true, beq_iff_eq]
    refine ⟨⟨by simp only [List.length_cons]; omega, ?_⟩, ?_⟩
    · refine containsEq_eq_true_iff.mpr (fun t ht => ?_)
      by_cases hxt : areTypesEqual x t = true
      · exact ⟨x, List.mem_cons_self _ _, areTypesEqual_symm hx_k (hwk t ht) hxt⟩
      · refine ⟨t, ?_, areTypesEqual_refl (hwk t ht)⟩
        exact List.mem_cons_of_mem _ (List.mem_filter.mpr ⟨ht, by simp [hxt]⟩)
    · refine containsEq_eq_true_iff.mpr (fun t ht => ?_)
      rcases List.mem_cons.mp ht with rfl | h
      · exact ⟨x0, hx0m, hx0e2⟩
      · have hmem := (List.mem_filter.mp h).1
        exact ⟨t, hmem, areTypesEqual_refl (hwk t hmem)⟩
  · have hdup2 : ∀ t ∈ ts, areTypesEqual t x = false := by
      rw [Bool.not_eq_true] at hdup
      rw [List.any_eq_false] at hdup
      intro t ht
      have := hdup t ht
      simpa using this
    have hfilter : ts.filter (fun t => !areTypesEqual x t) = ts := by
      refine List.filter_eq_self.mpr (fun t ht => ?_)
      simp only [Bool.not_eq_true']
      cases hxt : areTypesEqual x t with
      | false => rfl
      | true =>
          have := areTypesEqual_symm hx_k (hwk t ht) hxt
          exact absurd this (by simp [hdup2 t ht])
    have hr1 : normalizeUnionType (ts ++ [x]) = .union (ts ++ [x]) := by
      rw [normalizeUnionType_eq_union hany1
        (by rw [hflat1, if_neg hdup]
            simp only [List.length_append, List.length_cons, List.length_nil]
            omega),
        hflat1, if_neg hdup]
    have hr2 : normalizeUnionType (x :: ts) = .union (x :: ts) := by
      rw [normalizeUnionType_eq_union hany2
        (by rw [hflat2, hfilter]; simp only [List.length_cons]; omega), hflat2, hfilter]
    rw [hr1, hr2]
    simp only [eqUpTo, Bool.and_eq_true, beq_iff_eq]
    refine ⟨⟨by simp, ?_⟩, ?_⟩
    · refine containsEq_eq_true_iff.mpr (fun t ht => ?_)
      rcases List.mem_append.mp ht with h | h
      · exact ⟨t, List.mem_cons_of_mem _ h, areTypesEqual_refl (hwk t h)⟩
      · rw [List.mem_singleton] at h; subst h
        exact ⟨t, List.mem_cons_self _ _, areTypesEqual_refl hx_k⟩
    · refine containsEq_eq_true_iff.mpr (fun t ht => ?_)
      rcases List.mem_cons.mp ht with rfl | h
      · exact ⟨t, List.mem_append.mpr (Or.inr (List.mem_singleton.mpr rfl)),
          areTypesEqual_refl hx_k⟩
      · exact ⟨t, List.mem_append.mpr (Or.inl h), areTypesEqual_refl (hwk t h)⟩

theorem normalizeUnionType_pair {a b : TypeNode} (hA : isAnyType a = false)
    (hB : isAnyType b = false) (hUa : isUnionType a = false) (hUb : isUnionType b = false)
    (heq : areTypesEqual a b = false) : normalizeUnionType [a, b] = .union [a, b] := by
  have hany : ([a, b]).any isAnyType = false := by simp [hA, hB]
  have hflat : ([a, b]).foldl normStep [] = [a, b] := by
    simp only [List.foldl_cons, List.foldl_nil]
    have h0 : normStep [] a = [a] := by rw [normStep_nonunion hUa]; simp
    rw [h0, normStep_nonunion hUb]
    simp [heq]
  rw [normalizeUnionType_eq_union hany (by rw [hflat]; simp), hflat]

theorem eqUpTo_pair_comm {a b : TypeNode} (hka : keysOk a = true) (hkb : keysOk b = true) :
    eqUpTo (.union [a, b]) (.union [b, a]) = true := by
  simp only [eqUpTo, Bool.and_eq_true, beq_iff_eq]
  refine ⟨⟨by simp, ?_⟩, ?_⟩ <;> refine containsEq_eq_true_iff.mpr (fun t ht => ?_)
  · rcases List.mem_cons.mp ht with rfl | h
    · exact ⟨t, List.mem_cons_of_mem _ (List.mem_singleton.mpr rfl),
        areTypesEqual_refl hka⟩
    · rw [List.mem_singleton] at h; subst h
      exact ⟨t, List.mem_cons_self _ _, areTypesEqual_refl hkb⟩
  · rcases List.mem_cons.mp ht with rfl | h
    · exact ⟨t, List.mem_cons_of_mem _ (List.mem_singleton.mpr rfl),
        areTypesEqual_refl hkb⟩
    · rw [List.mem_singleton] at h; subst h
      exact ⟨t, List.mem_cons_self _ _, areTypesEqual_refl hka⟩

theorem mergeStringLiteralSets_mem_comm {e1 e2 : Option (List String)} (y : String) :
    y ∈ (mergeStringLiteralSets e1 e2).getD [] ↔ y ∈ (mergeStringLiteralSets e2 e1).getD [] := by
  cases e1 <;> cases e2 <;>
    (simp [mergeStringLiteralSets, mem_firstSeenDedup, List.mem_append]; try tauto)

theorem unifyFields_upTo {fa fb : List (String × TypeNode × Bool)}
    (hwa : wfNode (.obj fa) = true) (hwb : wfNode (.obj fb) = true)
    (IH : ∀ k ta ra tb rb, getField k fa = some (ta, ra) → getField k fb = some (tb, rb) →
      eqUpTo (unify ta tb) (unify tb ta) = true) :
    fieldsUpTo
      (unifyFields (firstSeenDedup (fa.map (fun e => e.1) ++ fb.map (fun e => e.1))) fa fb)
      (unifyFields (firstSeenDedup (fb.map (fun e => e.1) ++ fa.map (fun e => e.1))) fb fa)
      = true := by
  have hnd1 : nodupStr (firstSeenDedup (fa.map (fun e => e.1) ++ fb.map (fun e => e.1))) = true :=
    nodupStr_firstSeenDedup _
  have hnd2 : nodupStr (firstSeenDedup (fb.map (fun e => e.1) ++ fa.map (fun e => e.1))) = true :=
    nodupStr_firstSeenDedup _
  have hndu1 : nodupStr
      ((unifyFields (firstSeenDedup (fa.map (fun e => e.1) ++ fb.map (fun e => e.1))) fa fb).map
        (fun e => e.1)) = true := by
    rw [unifyFields_map_fst]
    exact nodupStr_filter hnd1
  refine fieldsUpTo_eq_true_iff.mpr (fun k t r hm => ?_)
  have hg1 := getField_of_mem_nodup hndu1 hm
  rw [getField_unifyFields hnd1 k] at hg1
  by_cases hk : k ∈ firstSeenDedup (fa.map (fun e => e.1) ++ fb.map (fun e => e.1))
  · rw [if_pos hk] at hg1
    have hk2 : k ∈ firstSeenDedup (fb.map (fun e => e.1) ++ fa.map (fun e => e.1)) := by
      rw [mem_firstSeenDedup] at hk
      rw [mem_firstSeenDedup]
      rcases List.mem_append.mp hk with h | h
      · exact List.mem_append.mpr (Or.inr h)
      · exact List.mem_append.mpr (Or.inl h)
    have hchar2 : getField k
        (unifyFields (firstSeenDedup (fb.map (fun e => e.1) ++ fa.map (fun e => e.1))) fb fa) =
        mergeLookup (getField k fb) (getField k fa) := by
      rw [getField_unifyFields hnd2 k, if_pos hk2]
    cases hga : getField k fa with
    | none =>
        cases hgb : getField k fb with
        | none => rw [hga, hgb] at hg1; simp [mergeLookup] at hg1
        | some pb =>
            obtain ⟨tb0, rb0⟩ := pb
            rw [hga, hgb] at hg1
            obtain ⟨rfl, rfl⟩ : tb0 = t ∧ r = false := by simpa [mergeLookup] using hg1
            refine ⟨tb0, false, ?_, rfl, ?_⟩
            · rw [hchar2, hgb, hga]; simp [mergeLookup]
            · exact eqUpTo_refl (wfNode_imp_keysOk (wf_field_type hwb hgb))
    | some pa =>
        obtain ⟨ta, ra⟩ := pa
        cases hgb : getField k fb with
        | none =>
            rw [hga, hgb] at hg1
            obtain ⟨rfl, rfl⟩ : ta = t ∧ r = false := by simpa [mergeLookup] using hg1
            refine ⟨ta, false, ?_, rfl, ?_⟩
            · rw [hchar2, hgb, hga]; simp [mergeLookup]
            · exact eqUpTo_refl (wfNode_imp_keysOk (wf_field_type hwa hga))
        | some pb =>
            obtain ⟨tb0, rb0⟩ := pb
            rw [hga, hgb] at hg1
            obtain ⟨rfl, rfl⟩ : unify ta tb0 = t ∧ (ra && rb0) = r := by
              simpa [mergeLookup] using hg1
            refine ⟨unify tb0 ta, rb0 && ra, ?_, Bool.and_comm ra rb0,
              IH k ta ra tb0 rb0 hga hgb⟩
            rw [hchar2, hgb, hga]
            simp [mergeLookup]
  · rw [if_neg hk] at hg1
    exact absurd hg1 (by simp)

theorem unify_comm_aux :
    ∀ (n : Nat) (a b : TypeNode), sizeOf a + sizeOf b ≤ n →
      wfNode a = true → wfNode b = true → eqUpTo (unify a b) (unify b a) = true := by
  intro n
  induction n with
  | zero =>
      intro a b hs _ _
      exact absurd hs (by have := sizeOf_TypeNode_pos a; have := sizeOf_TypeNode_pos b; omega)
  | succ m ih =>
      intro a b hs ha hb
      have hka := wfNode_imp_keysOk ha
      have hkb := wfNode_imp_keysOk hb
      by_cases heq : areTypesEqual a b = true
      · rw [unify_of_equal heq, unify_of_equal (areTypesEqual_symm hka hkb heq)]
        exact areTypesEqual_imp_eqUpTo hka hkb heq
      rw [Bool.not_eq_true] at heq
      have heq2 : areTypesEqual b a = false := by
        cases hba : areTypesEqual b a with
        | false => rfl
        | true => exact absurd (areTypesEqual_symm hkb hka hba) (by simp [heq])
      by_cases hA : isAnyType a = true
      · obtain rfl := isAnyType_eq_true_iff.mp hA
        rw [unify_any_left, unify_any_right]
        simp [eqUpTo]
      by_cases hB : isAnyType b = true
      · obtain rfl := isAnyType_eq_true_iff.mp hB
        rw [unify_any_right, unify_any_left]
        simp [eqUpTo]
      rw [Bool.not_eq_true] at hA hB
      by_cases hUa : isUnionType a = true
      · obtain ⟨ts, rfl⟩ := isUnionType_eq_true_iff.mp hUa
        obtain ⟨hlen, hna, hpw, hwm⟩ := wfNode_union_iff.mp ha
        have hwkm : ∀ t ∈ ts, keysOk t = true := fun t ht => wfNode_imp_keysOk (hwm t ht)
        by_cases hUb : isUnionType b = true
        · obtain ⟨us, rfl⟩ := isUnionType_eq_true_iff.mp hUb
          obtain ⟨hlen2, hna2, hpw2, hwm2⟩ := wfNode_union_iff.mp hb
          have hwkm2 : ∀ t ∈ us, keysOk t = true := fun t ht => wfNode_imp_keysOk (hwm2 t ht)
          rw [unify_union_left heq hB, unify_union_left heq2 hA]
          have hany1 : (ts ++ [TypeNode.union us]).any isAnyType = false := by
            rw [List.any_eq_false]
            intro t ht
            rcases List.mem_append.mp ht with h | h
            · simp [(hna t h).2]
            · rw [List.mem_singleton] at h; subst h; simp [isAnyType]
          have hany2 : (us ++ [TypeNode.union ts]).any isAnyType = false := by
            rw [List.any_eq_false]
            intro t ht
            rcases List.mem_append.mp ht with h | h
            · simp [(hna2 t h).2]
            · rw [List.mem_singleton] at h; subst h; simp [isAnyType]
          have hflat1 : (ts ++ [TypeNode.union us]).foldl normStep [] = ts ++ us := by
            rw [List.foldl_append,
              foldl_normStep_nil_of_normalized (fun t ht => (hna t ht).1) hpw]
            simp only [List.foldl_cons, List.foldl_nil]
            exact normStep_union
          have hflat2 : (us ++ [TypeNode.union ts]).foldl normStep [] = us ++ ts := by
            rw [List.foldl_append,
              foldl_normStep_nil_of_normalized (fun t ht => (hna2 t ht).1) hpw2]
            simp only [List.foldl_cons, List.foldl_nil]
            exact normStep_union
          rw [normalizeUnionType_eq_union hany1
              (by rw [hflat1]; simp only [List.length_append]; omega), hflat1,
            normalizeUnionType_eq_union hany2
              (by rw [hflat2]; simp only [List.length_append]; omega), hflat2]
          simp only [eqUpTo, Bool.and_eq_true, beq_iff_eq]
          refine ⟨⟨by simp only [List.length_append]; omega, ?_⟩, ?_⟩
          · refine containsEq_eq_true_iff.mpr (fun t ht => ?_)
            rcases List.mem_append.mp ht with h | h
            · exact ⟨t, List.mem_append.mpr (Or.inr h), areTypesEqual_refl (hwkm t h)⟩
            · exact ⟨t, List.mem_append.mpr (Or.inl h), areTypesEqual_refl (hwkm2 t h)⟩
          · refine containsEq_eq_true_iff.mpr (fun t ht => ?_)
            rcases List.mem_append.mp ht with h | h
            · exact ⟨t, List.mem_append.mpr (Or.inr h), areTypesEqual_refl (hwkm2 t h)⟩
            · exact ⟨t, List.mem_append.mpr (Or.inl h), areTypesEqual_refl (hwkm t h)⟩
        · rw [Bool.not_eq_true] at hUb
          rw [unify_union_left heq hB, unify_union_right heq2 hB hUb]
          exact norm_append_comm hna hpw hwkm hlen hUb hB hkb
      by_cases hUb : isUnionType b = true
      · obtain ⟨us, rfl⟩ := isUnionType_eq_true_iff.mp hUb
        obtain ⟨hlen2, hna2, hpw2, hwm2⟩ := wfNode_union_iff.mp hb
        have hwkm2 : ∀ t ∈ us, keysOk t = true := fun t ht => wfNode_imp_keysOk (hwm2 t ht)
        rw [Bool.not_eq_true] at hUa
        rw [unify_union_right heq hA hUa, unify_union_left heq2 hA]
        exact eqUpTo_symm (norm_append_comm hna2 hpw2 hwkm2 hlen2 hUa hA hka)
      rw [Bool.not_eq_true] at hUa hUb
      match a, b with
      | .str d1 e1 s1, .str d2 e2 s2 =>
          rw [unify_str_str heq, unify_str_str heq2]
          simp only [eqUpTo, Bool.and_eq_true, beq_iff_eq, setEqStr_eq_true_iff]
          refine ⟨Bool.or_comm d1 d2, fun y hy => ?_, fun y hy => ?_⟩
          · have := (@mergeStringLiteralSets_mem_comm e1 e2 y).mp
            simp only [List.contains_eq_any_beq] at *
            exact this hy
          · have := (@mergeStringLiteralSets_mem_comm e1 e2 y).mpr
            simp only [List.contains_eq_any_beq] at *
            exact this hy
      | .arr x, .arr y =>
          rw [unify_arr_arr heq, unify_arr_arr heq2]
          simp only [eqUpTo]
          have hx : sizeOf x < sizeOf (TypeNode.arr x) := by simp_arith
          have hy : sizeOf y < sizeOf (TypeNode.arr y) := by simp_arith
          exact ih x y (by omega) (by simpa [wfNode] using ha) (by simpa [wfNode] using hb)
      | .obj fa, .obj fb =>
          rw [unify_obj_obj heq, unify_obj_obj heq2]
          simp only [eqUpTo, Bool.and_eq_true, beq_iff_eq]
          have hfwd : ∀ k ta ra tb rb, getField k fa = some (ta, ra) →
              getField k fb = some (tb, rb) → eqUpTo (unify ta tb) (unify tb ta) = true := by
            intro k ta ra tb rb hga hgb
            have h1 := sizeOf_getField_obj hga
            have h2 := sizeOf_getField_obj hgb
            exact ih ta tb (by omega) (wf_field_type ha hga) (wf_field_type hb hgb)
          have hbwd : ∀ k tb rb ta ra, getField k fb = some (tb, rb) →
              getField k fa = some (ta, ra) → eqUpTo (unify tb ta) (unify ta tb) = true := by
            intro k tb rb ta ra hgb hga
            have h1 := sizeOf_getField_obj hga
            have h2 := sizeOf_getField_obj hgb
            exact ih tb ta (by omega) (wf_field_type hb hgb) (wf_field_type ha hga)
          refine ⟨⟨?_, unifyFields_upTo ha hb hfwd⟩, unifyFields_upTo hb ha hbwd⟩
          have e1 := @unifyFields_map_fst fa fb
            (firstSeenDedup (fa.map (fun e => e.1) ++ fb.map (fun e => e.1)))
          have e2 := @unifyFields_map_fst fb fa
            (firstSeenDedup (fb.map (fun e => e.1) ++ fa.map (fun e => e.1)))
          have hl1 : (unifyFields
              (firstSeenDedup (fa.map (fun e => e.1) ++ fb.map (fun e => e.1))) fa fb).length =
              ((unifyFields
                (firstSeenDedup (fa.map (fun e => e.1) ++ fb.map (fun e => e.1))) fa fb).map
                  (fun e => e.1)).length := by
            rw [List.length_map]
          have hl2 : (unifyFields
              (firstSeenDedup (fb.map (fun e => e.1) ++ fa.map (fun e => e.1))) fb fa).length =
              ((unifyFields
                (firstSeenDedup (fb.map (fun e => e.1) ++ fa.map (fun e => e.1))) fb fa).map
                  (fun e => e.1)).length := by
            rw [List.length_map]
          rw [hl1, hl2, e1, e2]
          apply length_eq_of_nodup_of_mem_iff
          · exact nodupStr_eq_true_iff.mp (nodupStr_filter (nodupStr_firstSeenDedup _))
          · exact nodupStr_eq_true_iff.mp (nodupStr_filter (nodupStr_firstSeenDedup _))
          · intro x
            simp only [List.mem_filter, mem_firstSeenDedup, List.mem_append]
            constructor
            · rintro ⟨hm, hp⟩
              refine ⟨Or.symm hm, ?_⟩
              simp only [Bool.or_eq_true] at hp ⊢
              tauto
            · rintro ⟨hm, hp⟩
              refine ⟨Or.symm hm, ?_⟩
              simp only [Bool.or_eq_true] at hp ⊢
              tauto
      | .any, .number | .any, .boolean | .any, .str _ _ _ | .any, .arr _ | .any, .union _
      | .any, .obj _ | .number, .any | .number, .boolean | .number, .str _ _ _
      | .number, .arr _ | .number, .union _ | .number, .obj _ | .boolean, .any
      | .boolean, .number | .boolean, .str _ _ _ | .boolean, .arr _ | .boolean, .union _
      | .boolean, .obj _ | .str _ _ _, .any | .str _ _ _, .number | .str _ _ _, .boolean
      | .str _ _ _, .arr _ | .str _ _ _, .union _ | .str _ _ _, .obj _ | .arr _, .any
      | .arr _, .number | .arr _, .boolean | .arr _, .str _ _ _ | .arr _, .union _
      | .arr _, .obj _ | .union _, .any | .union _, .number | .union _, .boolean
      | .union _, .str _ _ _ | .union _, .arr _ | .union _, .obj _ | .obj _, .any
      | .obj _, .number | .obj _, .boolean | .obj _, .str _ _ _ | .obj _, .arr _
      | .obj _, .union _ | .any, .any | .number, .number | .boolean, .boolean =>
          first
          | (refine absurd hA ?_; simp [isAnyType]; done)
          | (refine absurd hB ?_; simp [isAnyType]; done)
          | (refine absurd hUa ?_; simp [isUnionType]; done)
          | (refine absurd hUb ?_; simp [isUnionType]; done)
          | (refine absurd heq ?_; simp [areTypesEqual]; done)
          | (rw [unify.eq_def, unify.eq_def]
             simp only [heq, heq2, Bool.false_eq_true, if_false, hA, hB, Bool.or_self]
             rw [normalizeUnionType_pair hA hB hUa hUb heq,
               normalizeUnionType_pair hB hA hUb hUa heq2]
             exact eqUpTo_pair_comm hka hkb)

/-- Commutativity of `unifyTypes` up to reordering, for trees satisfying the
data-model invariants. -/
theorem unify_comm_upTo {a b : TypeNode} (ha : wfNode a = true) (hb : wfNode b = true) :
    eqUpTo (unify a b) (unify b a) = true :=
  unify_comm_aux (sizeOf a + sizeOf b) a b le_rfl ha hb

/-! ## The normalization invariant of the specification -/

/-- No member of the list is structurally equal to a later member (the
guarantee produced by the dedup check of `normalizeUnionType`). -/
def noEqDup : List TypeNode → Bool
  | [] => true
  | t :: rest => rest.all (fun u => !areTypesEqual t u) && noEqDup rest

/-- The §3 union invariant claimed for every normalization result: a union
node has no union member, no `any` member, no structurally duplicate
member, and never exactly one member; every non-union node satisfies it
trivially. -/
def normalizedOk : TypeNode → Bool
  | .union us =>
      us.all (fun t => !isUnionType t && !isAnyType t) && noEqDup us &&
        decide (us.length ≠ 1)
  | _ => true

theorem normalizedOk_of_not_union {t : TypeNode} (h : isUnionType t = false) :
    normalizedOk t = true := by
  cases t <;> simp_all [normalizedOk, isUnionType]

theorem noEqDup_append_singleton {acc : List TypeNode} {t : TypeNode}
    (h1 : noEqDup acc = true) (h2 : acc.all (fun e => !areTypesEqual e t) = true) :
    noEqDup (acc ++ [t]) = true := by
  induction acc with
  | nil => simp [noEqDup]
  | cons a rest ih =>
      simp only [noEqDup, Bool.and_eq_true] at h1
      simp only [List.all_cons, Bool.and_eq_true] at h2
      simp only [List.cons_append, noEqDup, Bool.and_eq_true]
      refine ⟨?_, ih h1.2 h2.2⟩
      show ((rest ++ [t]).all fun u => !areTypesEqual a u) = true
      rw [List.all_append]
      simp only [Bool.and_eq_true]
      exact ⟨h1.1, by simp [h2.1]⟩

theorem foldl_normStep_inv :
    ∀ (l acc : List TypeNode), (∀ t ∈ l, isUnionType t = false ∧ isAnyType t = false) →
      acc.all (fun t => !isUnionType t && !isAnyType t) = true → noEqDup acc = true →
      (l.foldl normStep acc).all (fun t => !isUnionType t && !isAnyType t) = true ∧
        noEqDup (l.foldl normStep acc) = true
  | [], acc, _, hacc1, hacc2 => ⟨hacc1, hacc2⟩
  | t0 :: rest, acc, hl, hacc1, hacc2 => by
      have hl0 := hl t0 (List.mem_cons_self _ _)
      have hlr : ∀ t ∈ rest, isUnionType t = false ∧ isAnyType t = false :=
        fun t ht => hl t (List.mem_cons_of_mem _ ht)
      rw [List.foldl_cons, normStep_nonunion hl0.1]
      by_cases hg : acc.any (fun e => areTypesEqual e t0) = true
      · rw [if_pos hg]
        exact foldl_normStep_inv rest acc hlr hacc1 hacc2
      · rw [if_neg hg]
        refine foldl_normStep_inv rest (acc ++ [t0]) hlr ?_ ?_
        · rw [List.all_append]
          simp only [Bool.and_eq_true]
          exact ⟨hacc1, by simp [hl0.1, hl0.2]⟩
        · refine noEqDup_append_singleton hacc2 ?_
          rw [Bool.not_eq_true] at hg
          rw [List.any_eq_false] at hg
          rw [List.all_eq_true]
          intro e he
          simp [hg e he]

/-- The amended normalization-closure claim: on a member list free of
nested unions, `normalizeUnionType` establishes every invariant of §3. -/
theorem normalizedOk_normalizeUnionType {ts : List TypeNode}
    (h : ∀ t ∈ ts, isUnionType t = false) :
    normalizedOk (normalizeUnionType ts) = true := by
  by_cases hany : ts.any isAnyType = true
  · rw [normalizeUnionType_of_any hany]
    simp [normalizedOk]
  · rw [Bool.not_eq_true] at hany
    have hna : ∀ t ∈ ts, isUnionType t = false ∧ isAnyType t = false := by
      intro t ht
      refine ⟨h t ht, ?_⟩
      rw [List.any_eq_false] at hany
      simpa using hany t ht
    have hinv := foldl_normStep_inv ts [] hna (by simp) (by simp [noEqDup])
    rcases hf : ts.foldl normStep [] with _ | ⟨a, _ | ⟨b, r⟩⟩
    · rw [normalizeUnionType_eq_union hany (by rw [hf]; simp), hf]
      simp [normalizedOk, noEqDup]
    · rw [normalizeUnionType_of_singleton hany hf]
      rw [hf] at hinv
      have := hinv.1
      simp only [List.all_cons, List.all_nil, Bool.and_true, Bool.and_eq_true] at this
      exact normalizedOk_of_not_union (by simpa using this.1)
    · rw [normalizeUnionType_eq_union hany (by rw [hf]; simp), hf]
      rw [hf] at hinv
      simp only [normalizedOk, Bool.and_eq_true]
      exact ⟨⟨hinv.1, hinv.2⟩, by simp⟩

/-! ## Lemmas for the enum-threshold claim -/

theorem arrayContainsOnlyStrings_map_str (ss : List String) :
    arrayContainsOnlyStrings (ss.map JSON.str) = true := by
  rw [arrayContainsOnlyStrings, List.all_eq_true]
  intro v hv
  obtain ⟨s, _, rfl⟩ := List.mem_map.mp hv
  rfl

theorem asStrings_map_str (ss : List String) : asStrings (ss.map JSON.str) = ss := by
  induction ss with
  | nil => rfl
  | cons s rest ih => simp [asStrings, List.filterMap_cons] at ih ⊢; exact ih

theorem unifyTypesMany_plain_strings :
    ∀ (l : List TypeNode), l ≠ [] → (∀ t ∈ l, ∃ d sm, t = .str d none sm) →
      ∃ d sm, unifyTypesMany l = .str d none sm := by
  intro l hne hstr
  cases l with
  | nil => exact absurd rfl hne
  | cons x xs =>
      rw [unifyTypesMany]
      have hx := hstr x (List.mem_cons_self _ _)
      have hxs : ∀ t ∈ xs, ∃ d sm, t = .str d none sm :=
        fun t ht => hstr t (List.mem_cons_of_mem _ ht)
      clear hstr hne
      induction xs generalizing x with
      | nil => simpa using hx
      | cons y ys ihl =>
          rw [List.foldl_cons]
          refine ihl (unify x y) ?_ (fun t ht => hxs t (List.mem_cons_of_mem _ ht))
          obtain ⟨d1, s1, rfl⟩ := hx
          obtain ⟨d2, s2, rfl⟩ := hxs y (List.mem_cons_self _ _)
          by_cases heq : areTypesEqual (.str d1 none s1) (.str d2 none s2) = true
          · rw [unify_of_equal heq]
            exact ⟨d1, s1, rfl⟩
          · rw [Bool.not_eq_true] at heq
            rw [unify_str_str heq]
            exact ⟨d1 || d2, none, rfl⟩

/-! ## Lemmas for the required-field claim -/

/-- The `required` flag of a field, `false` when the field is absent. -/
def fieldRequired (k : String) (fs : List (String × TypeNode × Bool)) : Bool :=
  match getField k fs with
  | some (_, r) => r
  | none => false

theorem areTypesEqual_obj_keys_iff {fa fb : List (String × TypeNode × Bool)}
    (hnda : nodupStr (fa.map (fun e => e.1)) = true)
    (hndb : nodupStr (fb.map (fun e => e.1)) = true)
    (h : areTypesEqual (.obj fa) (.obj fb) = true) :
    ∀ k, k ∈ fa.map (fun e => e.1) ↔ k ∈ fb.map (fun e => e.1) := by
  simp only [areTypesEqual, Bool.and_eq_true, beq_iff_eq] at h
  obtain ⟨hlen, hfields⟩ := h
  have hprops := eqFieldsIn_eq_true_iff.mp hfields
  have hsub : ∀ x ∈ fa.map (fun e => e.1), x ∈ fb.map (fun e => e.1) := by
    intro x hx
    obtain ⟨e, he, rfl⟩ := List.mem_map.mp hx
    obtain ⟨k, t, r⟩ := e
    obtain ⟨tb, rb, hg, _, _⟩ := hprops k t r he
    rw [← getField_isSome_iff, hg]
    rfl
  exact mem_iff_of_subset_of_length (nodupStr_eq_true_iff.mp hnda)
    (nodupStr_eq_true_iff.mp hndb) hsub (by simp [hlen])

/-! # The claims -/

/-- Claim C1: for all object-kind TypeNodes, a field of `unifyTypes(a, b)`'s
result is `required` if and only if its key is present in both field sets
with `required = true` (`fieldRequired` returns `false` for an absent key,
so the boolean equation states exactly that), and a key present in only one
side keeps its type unchanged and gets `required = false`.  The key-unique
hypotheses state that the field lists are valid JS `Map`s. -/
theorem claim_C1_required_fields (fa fb : List (String × TypeNode × Bool))
    (ha : nodupStr (fa.map (fun e => e.1)) = true)
    (hb : nodupStr (fb.map (fun e => e.1)) = true) :
    ∃ fr, unify (.obj fa) (.obj fb) = .obj fr ∧
      (∀ k, fieldRequired k fr = (fieldRequired k fa && fieldRequired k fb)) ∧
      (∀ k ta ra, getField k fa = some (ta, ra) → getField k fb = none →
        getField k fr = some (ta, false)) ∧
      (∀ k tb rb, getField k fb = some (tb, rb) → getField k fa = none →
        getField k fr = some (tb, false)) := by
  by_cases heq : areTypesEqual (.obj fa) (.obj fb) = true
  · have heqc := heq
    simp only [areTypesEqual, Bool.and_eq_true, beq_iff_eq] at heqc
    obtain ⟨hlen, hfields⟩ := heqc
    have hprops := eqFieldsIn_eq_true_iff.mp hfields
    refine ⟨fa, unify_of_equal heq, ?_, ?_, ?_⟩
    · intro k
      cases hga : getField k fa with
      | none => simp [fieldRequired, hga]
      | some pa =>
          obtain ⟨ta, ra⟩ := pa
          obtain ⟨tb, rb, hgb, hreq, _⟩ := hprops k ta ra (mem_of_getField hga)
          simp only [fieldRequired, hga, hgb]
          rw [← hreq, Bool.and_self]
    · intro k ta ra hga hgb
      obtain ⟨tb, rb, hgb2, _, _⟩ := hprops k ta ra (mem_of_getField hga)
      rw [hgb] at hgb2
      exact absurd hgb2 (by simp)
    · intro k tb rb hgb hga
      have hkb2 : k ∈ fb.map (fun e => e.1) := by
        rw [← getField_isSome_iff, hgb]; rfl
      have hka2 : k ∈ fa.map (fun e => e.1) :=
        (areTypesEqual_obj_keys_iff ha hb heq k).mpr hkb2
      rw [← getField_isSome_iff, hga] at hka2
      simp at hka2
  · rw [Bool.not_eq_true] at heq
    rw [unify_obj_obj heq]
    have hnd := nodupStr_firstSeenDedup (fa.map (fun e => e.1) ++ fb.map (fun e => e.1))
    have hchar := @getField_unifyFields fa fb
      (firstSeenDedup (fa.map (fun e => e.1) ++ fb.map (fun e => e.1))) hnd
    refine ⟨_, rfl, ?_, ?_, ?_⟩
    · intro k
      simp only [fieldRequired]
      rw [hchar k]
      by_cases hk : k ∈ firstSeenDedup (fa.map (fun e => e.1) ++ fb.map (fun e => e.1))
      · rw [if_pos hk]
        cases hga : getField k fa with
        | none =>
            cases hgb : getField k fb with
            | none => simp [mergeLookup]
            | some pb => obtain ⟨tb, rb⟩ := pb; simp [mergeLookup]
        | some pa =>
            obtain ⟨ta, ra⟩ := pa
            cases hgb : getField k fb with
            | none => simp [mergeLookup]
            | some pb => obtain ⟨tb, rb⟩ := pb; simp [mergeLookup]
      · rw [if_neg hk]
        have hka2 : getField k fa = none := by
          rw [getField_eq_none_iff]
          intro hc
          exact hk (mem_firstSeenDedup.mpr (List.mem_append.mpr (Or.inl hc)))
        have hkb2 : getField k fb = none := by
          rw [getField_eq_none_iff]
          intro hc
          exact hk (mem_firstSeenDedup.mpr (List.mem_append.mpr (Or.inr hc)))
        simp [hka2, hkb2]
    · intro k ta ra hga hgb
      have hk : k ∈ firstSeenDedup (fa.map (fun e => e.1) ++ fb.map (fun e => e.1)) := by
        refine mem_firstSeenDedup.mpr (List.mem_append.mpr (Or.inl ?_))
        rw [← getField_isSome_iff, hga]; rfl
      rw [hchar k, if_pos hk, hga, hgb]
      rfl
    · intro k tb rb hgb hga
      have hk : k ∈ firstSeenDedup (fa.map (fun e => e.1) ++ fb.map (fun e => e.1)) := by
        refine mem_firstSeenDedup.mpr (List.mem_append.mpr (Or.inr ?_))
        rw [← getField_isSome_iff, hgb]; rfl
      rw [hchar k, if_pos hk, hga, hgb]
      rfl

/-- Witness for C1 at two concrete objects sharing key `x`, with `y` only on
the left and `z` (optional) only on the right. -/
theorem claim_C1_witness :
    nodupStr (([("x", TypeNode.number, true), ("y", TypeNode.boolean, true)]).map
        (fun e => e.1)) = true ∧
    nodupStr (([("x", TypeNode.number, true), ("z", TypeNode.number, false)]).map
        (fun e => e.1)) = true ∧
    (∃ fr, unify (.obj [("x", TypeNode.number, true), ("y", TypeNode.boolean, true)])
        (.obj [("x", TypeNode.number, true), ("z", TypeNode.number, false)]) = .obj fr ∧
      (∀ k, fieldRequired k fr =
        (fieldRequired k [("x", TypeNode.number, true), ("y", TypeNode.boolean, true)] &&
          fieldRequired k [("x", TypeNode.number, true), ("z", TypeNode.number, false)])) ∧
      (∀ k ta ra,
        getField k [("x", TypeNode.number, true), ("y", TypeNode.boolean, true)] =
            some (ta, ra) →
        getField k [("x", TypeNode.number, true), ("z", TypeNode.number, false)] = none →
        getField k fr = some (ta, false)) ∧
      (∀ k tb rb,
        getField k [("x", TypeNode.number, true), ("z", TypeNode.number, false)] =
            some (tb, rb) →
        getField k [("x", TypeNode.number, true), ("y", TypeNode.boolean, true)] = none →
        getField k fr = some (tb, false))) :=
  ⟨by decide, by decide, claim_C1_required_fields _ _ (by decide) (by decide)⟩

/-- Claim C2 counterexample: unifying the two normalized (well-formed)
unions `number | boolean` and `number | string` splices the second union's
members in without deduplication, producing a union that repeats `number` —
so the result of normalization is NOT deduplicated, refuting the claim. -/
theorem claim_C2_counterexample :
    wfNode (.union [.number, .boolean]) = true ∧
    wfNode (.union [.number, .str false none none]) = true ∧
    unify (.union [.number, .boolean]) (.union [.number, .str false none none]) =
      .union [.number, .boolean, .number, .str false none none] ∧
    normalizedOk (.union [.number, .boolean, .number, .str false none none]) = false := by
  refine ⟨?_, ?_, ?_, ?_⟩
  · simp [wfNode, wfNodeList, pairwiseNE, areTypesEqual, isUnionType, isAnyType]
  · simp [wfNode, wfNodeList, pairwiseNE, areTypesEqual, isUnionType, isAnyType]
  · simp [unify, areTypesEqual, eqTypeList, isAnyType, normalizeUnionType, normStep]
  · simp [normalizedOk, noEqDup, areTypesEqual]

/-- Claim C2 (amended): provided no member of the list being normalized is
itself a union, the result of `normalizeUnionType` never contains a nested
union, never contains `Any` (any `Any` member collapses the result to `Any`
before a union is built), has no member structurally equal to a later one,
and is never a singleton union.  (When a member is itself a union, its
elements are spliced in with no `Any` check and no deduplication — see the
counterexample.) -/
theorem claim_C2_normalization_closure (ts : List TypeNode)
    (h : ∀ t ∈ ts, isUnionType t = false) :
    normalizedOk (normalizeUnionType ts) = true :=
  normalizedOk_normalizeUnionType h

/-- Witness for C2 at a list with a duplicate `number` member. -/
theorem claim_C2_witness :
    (∀ t ∈ [TypeNode.number, TypeNode.number, TypeNode.boolean], isUnionType t = false) ∧
    normalizedOk (normalizeUnionType [TypeNode.number, TypeNode.number, TypeNode.boolean])
      = true :=
  ⟨by decide, claim_C2_normalization_closure _ (by decide)⟩

/-- Claim C3 counterexample: `unify(number, boolean)` and
`unify(boolean, number)` store the two-member union in opposite orders, and
`areTypesEqual` compares union members positionally, so the two results are
NOT structurally equal. -/
theorem claim_C3_counterexample :
    areTypesEqual (unify .number .boolean) (unify .boolean .number) = false := by
  simp [unify, areTypesEqual, eqTypeList, isAnyType, normalizeUnionType, normStep]

/-- Claim C3 (amended): for TypeNodes satisfying the data-model invariants
(unique object keys; every union normalized: at least two members, no union
or `Any` member, members pairwise structurally distinct), `unify(a, b)` and
`unify(b, a)` are structurally equal up to reordering of union members and
of merged `enumValues` (the `eqUpTo` relation); strict structural equality
fails because union member order differs (see the counterexample). -/
theorem claim_C3_unify_commutative (a b : TypeNode) (ha : wfNode a = true)
    (hb : wfNode b = true) : eqUpTo (unify a b) (unify b a) = true :=
  unify_comm_upTo ha hb

/-- Witness for C3 at `number` and `boolean`. -/
theorem claim_C3_witness :
    wfNode TypeNode.number = true ∧ wfNode TypeNode.boolean = true ∧
    eqUpTo (unify .number .boolean) (unify .boolean .number) = true :=
  ⟨by simp [wfNode], by simp [wfNode],
    claim_C3_unify_commutative _ _ (by simp [wfNode]) (by simp [wfNode])⟩

/-- Claim C4 counterexample: for the empty array (all of whose elements are
vacuously strings) with `stringEnumMinUniqueValues = 0`, the enum condition
of `shouldUseStringEnumForArray` holds (0 distinct values lie within
`[0, 12]` and the per-value checks are vacuous), yet inference returns
`Array{items: Any}` — the empty array is short-circuited before the enum
check, so the claimed "exactly when" fails on empty arrays. -/
theorem claim_C4_counterexample :
    inferTypeFromValue (.arr []) ⟨true, 0, 12⟩ = .arr .any ∧
    arrayContainsOnlyStrings [] = true ∧
    shouldUseStringEnumForArray (asStrings []) ⟨true, 0, 12⟩ = true := by
  refine ⟨?_, rfl, ?_⟩
  · simp [inferTypeFromValue]
  · simp [shouldUseStringEnumForArray, asStrings, firstSeenDedup]

/-- Claim C4 (amended): for a NONEMPTY array whose elements are all strings,
inference yields `items = String` with `enumValues` equal to the distinct
values in first-seen order exactly when `shouldUseStringEnumForArray`
accepts (distinct count within the thresholds and every distinct value
non-empty, at most 20 characters, and matching `[A-Za-z0-9_-]+`); otherwise
the item type is a plain string node with no `enumValues`.  (The empty
array yields `Array{items: Any}` before the enum check — counterexample.) -/
theorem claim_C4_enum_threshold (ss : List String) (o : InferOptions) (hne : ss ≠ []) :
    (shouldUseStringEnumForArray ss o = true →
      inferTypeFromValue (.arr (ss.map JSON.str)) o =
        .arr (.str false (some (firstSeenDedup ss)) none)) ∧
    (shouldUseStringEnumForArray ss o = false →
      ∃ d sm, inferTypeFromValue (.arr (ss.map JSON.str)) o = .arr (.str d none sm)) := by
  have hmapne : (ss.map JSON.str).isEmpty = false := by
    cases ss with
    | nil => exact absurd rfl hne
    | cons s rest => rfl
  constructor
  · intro hc
    rw [inferTypeFromValue_arr, if_neg (by simp [hmapne]),
      if_pos (by rw [arrayContainsOnlyStrings_map_str, asStrings_map_str, hc]; rfl),
      asStrings_map_str]
  · intro hc
    rw [inferTypeFromValue_arr, if_neg (by simp [hmapne]),
      if_neg (by rw [asStrings_map_str, hc]; simp)]
    have hl : inferList (ss.map JSON.str) o ≠ [] := by
      rw [inferList_eq_map]
      cases ss with
      | nil => exact absurd rfl hne
      | cons s rest => simp
    have hshapes : ∀ t ∈ inferList (ss.map JSON.str) o, ∃ d sm, t = .str d none sm := by
      intro t ht
      rw [inferList_eq_map] at ht
      obtain ⟨v, hv, rfl⟩ := List.mem_map.mp ht
      obtain ⟨s, _, rfl⟩ := List.mem_map.mp hv
      exact ⟨o.detectDatesFromIsoStrings && isIsoLikeDateString s, some s, by
        simp [inferTypeFromValue]⟩
    obtain ⟨d, sm, hu⟩ := unifyTypesMany_plain_strings _ hl hshapes
    exact ⟨d, sm, by rw [hu]⟩

/-- Witness for C4 at `["a", "b"]` with `min = 2, max = 12` (the enum
condition holds, giving the two-member string-literal enum). -/
theorem claim_C4_witness :
    ((["a", "b"] : List String) ≠ []) ∧
    ((shouldUseStringEnumForArray ["a", "b"] ⟨true, 2, 12⟩ = true →
      inferTypeFromValue (.arr ((["a", "b"] : List String).map JSON.str)) ⟨true, 2, 12⟩ =
        .arr (.str false (some (firstSeenDedup ["a", "b"])) none)) ∧
    (shouldUseStringEnumForArray ["a", "b"] ⟨true, 2, 12⟩ = false →
      ∃ d sm, inferTypeFromValue (.arr ((["a", "b"] : List String).map JSON.str)) ⟨true, 2, 12⟩ =
        .arr (.str d none sm))) :=
  ⟨by decide, claim_C4_enum_threshold ["a", "b"] ⟨true, 2, 12⟩ (by decide)⟩

/-- Claim C5: `unify(x, x)` equals `x` exactly (the structural-equality
short-circuit returns the left operand unchanged).  The hypothesis states
that `x`'s object field lists are valid JS `Map`s (unique keys), which is
every representable tree. -/
theorem claim_C5_unify_idempotent (x : TypeNode) (h : keysOk x = true) : unify x x = x :=
  unify_of_equal (areTypesEqual_refl h)

/-- Witness for C5 at a concrete object node. -/
theorem claim_C5_witness :
    keysOk (TypeNode.obj [("a", .number, true), ("b", .str false none none, false)]) = true ∧
    unify (TypeNode.obj [("a", .number, true), ("b", .str false none none, false)])
        (TypeNode.obj [("a", .number, true), ("b", .str false none none, false)]) =
      TypeNode.obj [("a", .number, true), ("b", .str false none none, false)] :=
  ⟨by simp [keysOk, keysOkFields, nodupStr],
    claim_C5_unify_idempotent _ (by simp [keysOk, keysOkFields, nodupStr])⟩

/-- Claim C6: `Any` dominates unification on both sides:
`unify(Any, x) = Any` and `unify(x, Any) = Any` for every TypeNode `x`. -/
theorem claim_C6_any_dominance (x : TypeNode) :
    unify .any x = .any ∧ unify x .any = .any :=
  ⟨unify_any_left x, unify_any_right x⟩

/-- Claim C7 counterexample: two string nodes whose `enumValues` are equal
as sets but stored in different orders are NOT `areTypesEqual` — the source
compares the `JSON.stringify` of the lists, which is order-sensitive, so
equality is not "compared as sets" as claimed. -/
theorem claim_C7_counterexample :
    areTypesEqual (.str false (some ["a", "b"]) none) (.str false (some ["b", "a"]) none)
        = false ∧
    setEqStr ["a", "b"] ["b", "a"] = true := by
  constructor
  · simp [areTypesEqual]
  · decide

/-- Claim C7 (amended): structural equality of two String nodes holds if
and only if their `isDate` flags are equal and their `enumValues` are equal
as SEQUENCES, with an absent list treated as empty — the order of the enum
values is significant (and `sample` is ignored), contrary to the claimed
order-insensitive set comparison. -/
theorem claim_C7_string_equality (d1 d2 : Bool) (e1 e2 : Option (List String))
    (s1 s2 : Option String) :
    areTypesEqual (.str d1 e1 s1) (.str d2 e2 s2) = true ↔
      (d1 = d2 ∧ e1.getD [] = e2.getD []) := by
  simp [areTypesEqual]

/-- Claim C9: inference is total — it is a function defined on every
JSON-decoded value (termination is established by the definition itself) —
and returns a well-formed TypeNode: every object node in the result has a
valid field `Map` (pairwise-distinct keys), given the same property of the
input value (guaranteed by `JSON.parse`). -/
theorem claim_C9_infer_total (v : JSON) (o : InferOptions) (h : jsonKeysOk v = true) :
    keysOk (inferTypeFromValue v o) = true :=
  keysOk_infer_aux (sizeOf v) v o le_rfl h

/-- Witness for C9 at a nested concrete value. -/
theorem claim_C9_witness :
    jsonKeysOk (.obj [("a", JSON.num 1), ("b", .arr [.str "x", .bool true])]) = true ∧
    keysOk (inferTypeFromValue (.obj [("a", JSON.num 1), ("b", .arr [.str "x", .bool true])])
      ⟨true, 2, 12⟩) = true :=
  ⟨by simp [jsonKeysOk, jsonKeysOkFields, jsonKeysOkList, nodupStr],
    claim_C9_infer_total _ _ (by simp [jsonKeysOk, jsonKeysOkFields, jsonKeysOkList, nodupStr])⟩

/-- Claim C10: every field of an object node returned directly by a single
inference call has `required = true` (a JSON-decoded value is never
`undefined`, so the source's `v !== undefined` test always passes). -/
theorem claim_C10_inferred_fields_required (v : JSON) (o : InferOptions)
    (fields : List (String × TypeNode × Bool)) (h : inferTypeFromValue v o = .obj fields) :
    ∀ e ∈ fields, e.2.2 = true := by
  cases v with
  | null => rw [inferTypeFromValue] at h; exact absurd h (by simp)
  | str s => rw [inferTypeFromValue] at h; exact absurd h (by simp)
  | num q => rw [inferTypeFromValue] at h; exact absurd h (by simp)
  | bool b => rw [inferTypeFromValue] at h; exact absurd h (by simp)
  | arr elems =>
      rw [inferTypeFromValue_arr] at h
      by_cases h1 : elems.isEmpty = true
      · rw [if_pos h1] at h; exact absurd h (by simp)
      · rw [if_neg h1] at h
        by_cases h2 : (arrayContainsOnlyStrings elems
            && shouldUseStringEnumForArray (asStrings elems) o) = true
        · rw [if_pos h2] at h; exact absurd h (by simp)
        · rw [if_neg h2] at h; exact absurd h (by simp)
  | obj kvs =>
      rw [inferTypeFromValue] at h
      injection h with h2
      subst h2
      intro e he
      obtain ⟨k, w, hm, rfl⟩ := mem_inferFields he
      rfl

/-- Witness for C10 at a concrete object value. -/
theorem claim_C10_witness :
    (inferTypeFromValue (.obj [("a", JSON.num 1)]) ⟨true, 2, 12⟩ =
      .obj [("a", TypeNode.number, true)]) ∧
    (∀ e ∈ [("a", TypeNode.number, true)], e.2.2 = true) :=
  ⟨by simp [inferTypeFromValue, inferFields],
    claim_C10_inferred_fields_required (.obj [("a", JSON.num 1)]) ⟨true, 2, 12⟩
      [("a", TypeNode.number, true)] (by simp [inferTypeFromValue, inferFields])⟩

end Typasaur
